import Mathlib

/-!
Verification of the Probabilistic Streaming Analytics Core.

This file shallowly embeds the sketch implementations of the repository
(Count-Min `TrendAnalyzer`, `BloomFilter`, `MinWiseSampler`, `FlajoletMartin`,
`AMSMomentEstimator`, the SimHash clusterer `SimHashTendencyAnalyzer`, and
`MarkovChainService`) and proves or refutes the frozen specification claims.

Machine integers are modelled as `Nat`/`Int` with explicit `% 2^w` where the
source wraps; the SHA-256 and SHA-1 primitives that every sketch builds on are
implemented bit-faithfully over byte lists so that claims can be settled at
concrete inputs.
-/

set_option maxRecDepth 4000

namespace Streaming

/-- UTF-8 encoding of one character (the byte values of Python's
`str.encode('utf-8')` for that code point). -/
def utf8Char (c : Char) : List Nat :=
  let n := c.toNat
  if n < 0x80 then [n]
  else if n < 0x800 then
    [0xC0 ||| (n >>> 6), 0x80 ||| (n &&& 0x3F)]
  else if n < 0x10000 then
    [0xE0 ||| (n >>> 12), 0x80 ||| ((n >>> 6) &&& 0x3F), 0x80 ||| (n &&& 0x3F)]
  else
    [0xF0 ||| (n >>> 18), 0x80 ||| ((n >>> 12) &&& 0x3F),
     0x80 ||| ((n >>> 6) &&& 0x3F), 0x80 ||| (n &&& 0x3F)]

/-- UTF-8 encoding of a string, as the list of its byte values
(Python's `s.encode('utf-8')`). -/
def utf8 (s : String) : List Nat :=
  s.data.foldr (fun c acc => utf8Char c ++ acc) []

/-- Big-endian byte expansion: the `k` bytes of `n`, most significant first. -/
def bytesBE (k n : Nat) : List Nat :=
  (List.range k).map (fun i => (n >>> (8 * (k - 1 - i))) &&& 0xFF)

namespace SHA256

/-- The word modulus of SHA-256, 2^32. -/
def M32 : Nat := 4294967296

/-- Right rotation of a 32-bit word. -/
def rotr (x n : Nat) : Nat := ((x >>> n) ||| (x <<< (32 - n))) % M32

/-- The 64 SHA-256 round constants. -/
def K : List Nat :=
  [1116352408, 1899447441, 3049323471, 3921009573, 961987163,
   1508970993, 2453635748, 2870763221, 3624381080, 310598401,
   607225278, 1426881987, 1925078388, 2162078206, 2614888103,
   3248222580, 3835390401, 4022224774, 264347078, 604807628,
   770255983, 1249150122, 1555081692, 1996064986, 2554220882,
   2821834349, 2952996808, 3210313671, 3336571891, 3584528711,
   113926993, 338241895, 666307205, 773529912, 1294757372,
   1396182291, 1695183700, 1986661051, 2177026350, 2456956037,
   2730485921, 2820302411, 3259730800, 3345764771, 3516065817,
   3600352804, 4094571909, 275423344, 430227734, 506948616,
   659060556, 883997877, 958139571, 1322822218, 1537002063,
   1747873779, 1955562222, 2024104815, 2227730452, 2361852424,
   2428436474, 2756734187, 3204031479, 3329325298]

/-- The SHA-256 initial hash value. -/
def H0 : List Nat :=
  [1779033703, 3144134277, 1013904242, 2773480762,
   1359893119, 2600822924, 528734635, 1541459225]

/-- SHA-256 padding: append `0x80`, zero bytes to 56 mod 64, then the
64-bit big-endian bit length. -/
def pad (msg : List Nat) : List Nat :=
  let L := msg.length
  msg ++ [0x80] ++ List.replicate ((119 - L % 64) % 64) 0 ++ bytesBE 8 (8 * L)

/-- The 16 big-endian message words of one 64-byte chunk. -/
def words (chunk : List Nat) : List Nat :=
  (List.range 16).map (fun i =>
    (chunk.getD (4 * i) 0) <<< 24 + (chunk.getD (4 * i + 1) 0) <<< 16 +
    (chunk.getD (4 * i + 2) 0) <<< 8 + chunk.getD (4 * i + 3) 0)

/-- One step of the message-schedule extension (the body of the source's
`for i in range(16, 64)` loop), appending word `i = w.length`. -/
def extendStep (w : List Nat) : List Nat :=
  let i := w.length
  let x15 := w.getD (i - 15) 0
  let x2 := w.getD (i - 2) 0
  let s0 := (rotr x15 7) ^^^ (rotr x15 18) ^^^ (x15 >>> 3)
  let s1 := (rotr x2 17) ^^^ (rotr x2 19) ^^^ (x2 >>> 10)
  w ++ [(w.getD (i - 16) 0 + s0 + w.getD (i - 7) 0 + s1) % M32]

/-- Extend the 16 message words to the 64-entry message schedule
(48 extension steps). -/
def extend (w : List Nat) : List Nat :=
  (List.range 48).foldl (fun acc _ => extendStep acc) w

/-- One SHA-256 compression round. -/
def round (w : List Nat) (st : List Nat) (i : Nat) : List Nat :=
  match st with
  | [a, b, c, d, e, f, g, h] =>
    let S1 := (rotr e 6) ^^^ (rotr e 11) ^^^ (rotr e 25)
    let ch := (e &&& f) ^^^ ((e ^^^ 0xFFFFFFFF) &&& g)
    let t1 := (h + S1 + ch + K.getD i 0 + w.getD i 0) % M32
    let S0 := (rotr a 2) ^^^ (rotr a 13) ^^^ (rotr a 22)
    let mj := (a &&& b) ^^^ (a &&& c) ^^^ (b &&& c)
    let t2 := (S0 + mj) % M32
    [(t1 + t2) % M32, a, b, c, (d + t1) % M32, e, f, g]
  | st => st

/-- SHA-256 compression of one 64-byte chunk into the running hash. -/
def comp (hs : List Nat) (chunk : List Nat) : List Nat :=
  let w := extend (words chunk)
  let f := (List.range 64).foldl (round w) hs
  List.zipWith (fun x y => (x + y) % M32) hs f

/-- Split a byte list into 64-byte chunks; `fuel` bounds the number of
chunks (structural recursion so that the kernel can evaluate it). -/
def chunksAux (fuel : Nat) (l : List Nat) : List (List Nat) :=
  match fuel with
  | 0 => []
  | fuel + 1 => if l.isEmpty then [] else l.take 64 :: chunksAux fuel (l.drop 64)

/-- Split a byte list into 64-byte chunks. -/
def chunks (l : List Nat) : List (List Nat) := chunksAux l.length l

/-- SHA-256 digest of a byte list, as its eight 32-bit words. -/
def digest (msg : List Nat) : List Nat := (chunks (pad msg)).foldl comp H0

/-- SHA-256 digest as a single 256-bit natural number: this is Python's
`int(hashlib.sha256(msg).hexdigest(), 16)`. -/
def toNat (msg : List Nat) : Nat :=
  (digest msg).foldl (fun acc w => acc * M32 + w) 0

end SHA256

namespace SHA1

/-- Left rotation of a 32-bit word. -/
def rotl (x n : Nat) : Nat := ((x <<< n) ||| (x >>> (32 - n))) % SHA256.M32

/-- The SHA-1 initial hash value. -/
def H0 : List Nat := [1732584193, 4023233417, 2562383102, 271733878, 3285377520]

/-- One step of the SHA-1 message-schedule extension, appending word
`i = w.length`. -/
def extendStep (w : List Nat) : List Nat :=
  let i := w.length
  w ++ [rotl ((w.getD (i - 3) 0) ^^^ (w.getD (i - 8) 0) ^^^
              (w.getD (i - 14) 0) ^^^ (w.getD (i - 16) 0)) 1]

/-- Extend the 16 message words to the 80-entry SHA-1 schedule. -/
def extend (w : List Nat) : List Nat :=
  (List.range 64).foldl (fun acc _ => extendStep acc) w

/-- The SHA-1 round function and constant for round `i`. -/
def fk (i b c d : Nat) : Nat × Nat :=
  if i < 20 then ((b &&& c) ||| ((b ^^^ 0xFFFFFFFF) &&& d), 0x5A827999)
  else if i < 40 then (b ^^^ c ^^^ d, 0x6ED9EBA1)
  else if i < 60 then ((b &&& c) ||| (b &&& d) ||| (c &&& d), 0x8F1BBCDC)
  else (b ^^^ c ^^^ d, 0xCA62C1D6)

/-- One SHA-1 compression round. -/
def round (w : List Nat) (st : List Nat) (i : Nat) : List Nat :=
  match st with
  | [a, b, c, d, e] =>
    let p := fk i b c d
    let t := (rotl a 5 + p.1 + e + p.2 + w.getD i 0) % SHA256.M32
    [t, a, rotl b 30, c, d]
  | st => st

/-- SHA-1 compression of one 64-byte chunk into the running hash. -/
def comp (hs : List Nat) (chunk : List Nat) : List Nat :=
  let w := extend (SHA256.words chunk)
  let f := (List.range 80).foldl (round w) hs
  List.zipWith (fun x y => (x + y) % SHA256.M32) hs f

/-- SHA-1 digest of a byte list (same padding as SHA-256), as a 160-bit
natural number: Python's `int(hashlib.sha1(msg).hexdigest(), 16)`. -/
def toNat (msg : List Nat) : Nat :=
  ((SHA256.chunks (SHA256.pad msg)).foldl comp H0).foldl
    (fun acc w => acc * SHA256.M32 + w) 0

end SHA1

/-- Python exception outcomes that the embedded code can raise. -/
inductive PyError where
  | typeError
  | valueError
  | zeroDivisionError
  | indexError
  | internal
deriving Repr, DecidableEq

/-- Decidable equality of `Except` results, for settling runs of the
embedded fallible code at concrete inputs. -/
instance {ε α : Type} [DecidableEq ε] [DecidableEq α] : DecidableEq (Except ε α)
  | .ok a, .ok b =>
    if h : a = b then .isTrue (by rw [h]) else .isFalse (by intro hc; cases hc; exact h rfl)
  | .error a, .error b =>
    if h : a = b then .isTrue (by rw [h]) else .isFalse (by intro hc; cases hc; exact h rfl)
  | .ok _, .error _ => .isFalse (by intro hc; cases hc)
  | .error _, .ok _ => .isFalse (by intro hc; cases hc)

/-- First-match lookup in an association list; with the no-duplicate-keys
invariant maintained below this is exactly Python `dict` access. -/
def alookup {κ α : Type} [BEq κ] (l : List (κ × α)) (k : κ) : Option α :=
  (l.find? (fun p => p.1 == k)).map (fun p => p.2)

/-- Python `d[k] = v` on an insertion-ordered `dict`: replace the first
entry with key `k`, or append a fresh entry at the end. -/
def aset {κ α : Type} [BEq κ] : List (κ × α) → κ → α → List (κ × α)
  | [], k, v => [(k, v)]
  | (k1, v1) :: rest, k, v =>
    if k1 == k then (k1, v) :: rest else (k1, v1) :: aset rest k v

/-- A news record as the sketches see it: the `headline`, `content` and
`category` entries of the article dictionary. -/
structure Article where
  headline : String
  content : String
  category : String
deriving Repr, DecidableEq

namespace TrendAnalyzer

/-- Row hash of `src/src/trends/analyzer.py`: `_hash_func(x, salt) =
int(hashlib.sha256(f"{x}{salt}".encode()).hexdigest(), 16)`; row `i` uses
`salt = i`. -/
def hashFn (x : String) (salt : Nat) : Nat :=
  SHA256.toNat (utf8 (x ++ Nat.repr salt))

/-- State of `TrendAnalyzer`: the Count-Min `depth × width` counter matrix. -/
structure State where
  width : Nat
  depth : Nat
  sketch : List (List Nat)
deriving Repr, DecidableEq

/-- The constructor `TrendAnalyzer.__init__(width, depth)`.  It performs no
parameter validation and cannot raise: it only allocates the zero matrix
(`[[0]*width for _ in range(depth)]`). -/
def init (width depth : Nat) : State :=
  ⟨width, depth, List.replicate depth (List.replicate width 0)⟩

/-- Increment cell `index` of row `i` of the sketch. -/
def bumpCell (sketch : List (List Nat)) (i index : Nat) : List (List Nat) :=
  sketch.set i ((sketch.getD i []).set index ((sketch.getD i []).getD index 0 + 1))

/-- The loop body of `add(item)`: for each row `i`, increment
`sketch[i][hash_i(item) % width]`. -/
def addRows (s : State) (item : String) : List (List Nat) :=
  (List.range s.depth).foldl
    (fun sk i => bumpCell sk i (hashFn item i % s.width)) s.sketch

/-- The method `add(item)`.  The `% self.width` inside the row loop raises
`ZeroDivisionError` when `width = 0`, but only if the loop body runs at all
(`depth ≠ 0`); with `depth = 0` the loop over `range(depth)` is empty and
the call returns normally. -/
def add (s : State) (item : String) : Except PyError State :=
  if s.width = 0 ∧ s.depth ≠ 0 then .error .zeroDivisionError
  else .ok { s with sketch := addRows s item }

/-- The method `estimate(item)`: starting from `float('inf')`, fold `min`
over the hashed cell of each row (`⊤ : ℕ∞` models the infinity start).
With `width = 0` and `depth > 0` the source raises `ZeroDivisionError`. -/
def estimate (s : State) (item : String) : Except PyError (WithTop Nat) :=
  if s.width = 0 ∧ s.depth ≠ 0 then .error .zeroDivisionError
  else
    .ok ((List.range s.depth).foldl
      (fun m i =>
        min m ((s.sketch.getD i []).getD (hashFn item i % s.width) 0 : WithTop Nat))
      ⊤)

/-- Run a sequence of `add` calls. -/
def exec (s : State) (items : List String) : Except PyError State :=
  items.foldlM add s

end TrendAnalyzer

namespace BloomFilter

/-- The hash of `BloomFilter._hash`:
`int(hashlib.sha256(f"{item}-{seed}".encode('utf-8')).hexdigest(), 16)`. -/
def hash (item : String) (seed : Nat) : Nat :=
  SHA256.toNat (utf8 (item ++ "-" ++ Nat.repr seed))

/-- State of `BloomFilter`.  `bitArray` models the source's `bytearray`:
bit `index` of the array is bit `index % 8` of byte `index // 8`, i.e.
exactly bit `index` of this natural number.  `numBits` and `numHashes` are
the `m` and `k` the source derives from `(capacity, error_rate)` with the
floating-point formulas `m = ceil(-n*ln(p)/ln(2)^2)`, `k = ceil((m/n)*ln 2)`;
the claims under test are about `add`/`contains`/`clear` for whatever
`(m, k)` the constructor produced, so the state carries them as data. -/
structure State where
  capacity : Nat
  numBits : Nat
  numHashes : Nat
  bitArray : Nat
  count : Nat
deriving Repr, DecidableEq

/-- State after `BloomFilter.__init__` for valid parameters: zero bit
array and zero count, with the computed `m` and `k`. -/
def init (capacity numBits numHashes : Nat) : State :=
  ⟨capacity, numBits, numHashes, 0, 0⟩

/-- The method `add(item)`.  When `count >= capacity` the call returns at
once after printing a capacity warning (the `Bool` component records that
warning) and touches nothing; otherwise it ORs in the `k` hashed bit
positions and increments `count`. -/
def add (s : State) (item : String) : State × Bool :=
  if s.capacity ≤ s.count then (s, true)
  else
    ({ s with
        bitArray := (List.range s.numHashes).foldl
          (fun bits i => bits ||| (1 <<< (hash item i % s.numBits))) s.bitArray,
        count := s.count + 1 }, false)

/-- The method `__contains__(item)`: true iff every one of the `k` hashed
bit positions is set (the source returns `False` at the first unset bit). -/
def contains (s : State) (item : String) : Bool :=
  (List.range s.numHashes).all (fun i => s.bitArray.testBit (hash item i % s.numBits))

/-- The method `clear()`: fresh zero bit array and zero count; `m`, `k`
and the capacity are kept. -/
def clear (s : State) : State :=
  { s with bitArray := 0, count := 0 }

/-- Run a sequence of `add` calls, discarding the warning flags. -/
def exec (s : State) (items : List String) : State :=
  items.foldl (fun t x => (add t x).1) s

/-- The parameter checks at the top of `BloomFilter.__init__`: the source
raises `ValueError` unless `0 < error_rate < 1` and `capacity > 0` (in that
order).  The error rate, a Python float, is embedded as an exact rational
since it is only compared.  The rest of the constructor raises nothing for
parameters that pass these checks. -/
def checkParams (capacity : Int) (errorRate : ℚ) : Except PyError Unit :=
  if ¬(0 < errorRate ∧ errorRate < 1) then .error .valueError
  else if ¬(0 < capacity) then .error .valueError
  else .ok ()

end BloomFilter

namespace MinWiseSampler

/-- A heap entry `(hash_value, article)`. -/
abbrev Pair := Nat × Article

/-- Python `<` on the `(hash, dict)` tuples stored in the heaps: tuples
compare lexicographically; when the hashes are equal the dicts are compared,
and Python dicts support `==` but not `<`, so two distinct articles with
equal hashes raise `TypeError`. -/
def pyLtPair (p q : Pair) : Except PyError Bool :=
  if p.1 < q.1 then .ok true
  else if q.1 < p.1 then .ok false
  else if p.2 = q.2 then .ok false
  else .error .typeError

/-- The loop of `heapq._siftdown`: bubble `newitem`'s hole from `pos` up
toward `startpos`, moving larger parents down.  `fuel` bounds the number
of iterations (the position strictly decreases, so `pos` iterations
always suffice); running out of fuel is reported as `internal`. -/
def siftdownLoop (fuel : Nat) (newitem : Pair) (heap : List Pair)
    (startpos pos : Nat) : Except PyError (List Pair × Nat) :=
  match fuel with
  | 0 => if startpos < pos then .error .internal else .ok (heap, pos)
  | fuel + 1 =>
    if startpos < pos then
      let parentpos := (pos - 1) / 2
      match heap[parentpos]? with
      | none => .error .indexError
      | some parent => do
        let b ← pyLtPair newitem parent
        if b then siftdownLoop fuel newitem (heap.set pos parent) startpos parentpos
        else .ok (heap, pos)
    else .ok (heap, pos)

/-- `heapq._siftdown(heap, startpos, pos)`. -/
def siftdown (heap : List Pair) (startpos pos : Nat) : Except PyError (List Pair) :=
  match heap[pos]? with
  | none => .error .indexError
  | some newitem => do
    let r ← siftdownLoop pos newitem heap startpos pos
    .ok (r.1.set r.2 newitem)

/-- The loop of `heapq._siftup`: walk the hole at `pos` down to a leaf,
moving the smaller child up at each step.  `fuel` bounds the iterations
(`endpos` always suffices since the position strictly increases). -/
def siftupLoop (fuel : Nat) (heap : List Pair) (pos endpos : Nat) :
    Except PyError (List Pair × Nat) :=
  match fuel with
  | 0 => if 2 * pos + 1 < endpos then .error .internal else .ok (heap, pos)
  | fuel + 1 =>
    let childpos := 2 * pos + 1
    if childpos < endpos then do
      let rightpos := childpos + 1
      let cp ←
        if rightpos < endpos then
          match heap[childpos]?, heap[rightpos]? with
          | some c, some r => do
            let b ← pyLtPair c r
            pure (if b then childpos else rightpos)
          | _, _ => .error .indexError
        else pure childpos
      match heap[cp]? with
      | none => .error .indexError
      | some child => siftupLoop fuel (heap.set pos child) cp endpos
    else .ok (heap, pos)

/-- `heapq._siftup(heap, pos)`. -/
def siftup (heap : List Pair) (pos : Nat) : Except PyError (List Pair) :=
  match heap[pos]? with
  | none => .error .indexError
  | some newitem => do
    let r ← siftupLoop heap.length heap pos heap.length
    siftdown (r.1.set r.2 newitem) pos r.2

/-- `heapq.heappush(heap, item)`. -/
def heappush (heap : List Pair) (item : Pair) : Except PyError (List Pair) :=
  siftdown (heap ++ [item]) 0 heap.length

/-- `heapq.heappushpop(heap, item)`; the popped return value is discarded
by `add_article`, so only the resulting heap is modelled.  On an empty
heap, and when `item` is not greater than the root, the heap is left
unchanged. -/
def heappushpop (heap : List Pair) (item : Pair) : Except PyError (List Pair) :=
  match heap[0]? with
  | none => .ok heap
  | some h0 => do
    let b ← pyLtPair h0 item
    if b then siftup (heap.set 0 item) 0 else .ok heap

/-- State of `MinWiseSampler`: the target sample size and the
insertion-ordered per-category heaps. -/
structure State where
  sampleSize : Nat
  categorySamples : List (String × List Pair)
deriving Repr, DecidableEq

/-- The constructor `MinWiseSampler.__init__(sample_size)`: raises
`ValueError` unless `sample_size > 0`. -/
def initE (sampleSize : Int) : Except PyError State :=
  if ¬(0 < sampleSize) then .error .valueError
  else .ok ⟨sampleSize.toNat, []⟩

/-- `MinWiseSampler._hash_article`:
`int(sha256(f"{headline}-{content}".encode('utf-8')).hexdigest(), 16)`. -/
def articleHash (a : Article) : Nat :=
  SHA256.toNat (utf8 (a.headline ++ "-" ++ a.content))

/-- The method `add_article(article, category)`: push `(hash, article)`
onto the category's heap while it is smaller than `sample_size`, else
`heappushpop`. -/
def addArticle (s : State) (article : Article) (category : String) :
    Except PyError State := do
  let h := articleHash article
  let cur := (alookup s.categorySamples category).getD []
  let cur2 ←
    if cur.length < s.sampleSize then heappush cur (h, article)
    else heappushpop cur (h, article)
  .ok { s with categorySamples := aset s.categorySamples category cur2 }

/-- Stable insertion into a sorted list using Python `<` (inserts after
existing equal elements, as a stable sort does). -/
def insertE (x : Pair) : List Pair → Except PyError (List Pair)
  | [] => .ok [x]
  | y :: ys => do
    let b ← pyLtPair x y
    if b then .ok (x :: y :: ys)
    else do
      let r ← insertE x ys
      .ok (y :: r)

/-- Stable sort by Python `<`; agrees with Python's stable `sorted` on any
list whose elements are pairwise comparable without `TypeError` (every
list the settled claims evaluate it on). -/
def sortE : List Pair → Except PyError (List Pair)
  | [] => .ok []
  | x :: xs => do
    let r ← sortE xs
    insertE x r

/-- The method `get_sample(category)`: the category's heap sorted
ascending by hash, projected to the articles. -/
def getSample (s : State) (category : String) : Except PyError (List Article) :=
  match alookup s.categorySamples category with
  | some heap => do
    let r ← sortE heap
    .ok (r.map (fun p => p.2))
  | none => .ok []

end MinWiseSampler

namespace FlajoletMartin

/-- `FlajoletMartin._hash_item`:
`int(sha256(f"{item}-{seed}".encode('utf-8')).hexdigest(), 16) % 2**num_bits`. -/
def hashItem (numBits : Nat) (item : String) (seed : Nat) : Nat :=
  SHA256.toNat (utf8 (item ++ "-" ++ Nat.repr seed)) % 2 ^ numBits

/-- Position of the lowest set bit of a positive number (`fuel`-bounded
structural recursion; `fuel = numBits` suffices for values below
`2^numBits`). -/
def lowBit (fuel v : Nat) : Nat :=
  match fuel with
  | 0 => 0
  | fuel + 1 => if v % 2 = 1 then 0 else 1 + lowBit fuel (v / 2)

/-- `FlajoletMartin._rho(value)`: the trailing-zero count
`(value & -value).bit_length() - 1`, with `rho(0) = num_bits`. -/
def rho (numBits v : Nat) : Nat :=
  if v = 0 then numBits else lowBit numBits v

/-- State of `FlajoletMartin`: the per-hash-function maxima `R` and the
randomly drawn seeds (randomness is an explicit construction input). -/
structure State where
  numBits : Nat
  numHashFunctions : Nat
  R : List Nat
  hashSeeds : List Nat
deriving Repr, DecidableEq

/-- The parameter checks of `FlajoletMartin.__init__`: `ValueError`
unless `num_bits > 0` and `num_hash_functions > 0`. -/
def checkParams (numBits numHashFunctions : Int) : Except PyError Unit :=
  if ¬(0 < numBits) then .error .valueError
  else if ¬(0 < numHashFunctions) then .error .valueError
  else .ok ()

/-- State after `FlajoletMartin.__init__` for valid parameters, with the
given random seed draw: `R = [0] * num_hash_functions`. -/
def init (numBits numHashFunctions : Nat) (seeds : List Nat) : State :=
  ⟨numBits, numHashFunctions, List.replicate numHashFunctions 0, seeds⟩

/-- The method `add(item)`: `R[i] = max(R[i], rho(hash_i(item)))` for each
hash function. -/
def add (s : State) (item : String) : State :=
  { s with
    R := (List.range s.numHashFunctions).foldl
      (fun r i =>
        r.set i (max (r.getD i 0)
          (rho s.numBits (hashItem s.numBits item (s.hashSeeds.getD i 0))))) s.R }

/-- The method `estimate_distinct_count()`.  The source computes
`int((2 ** (sum(R) / h)) / 0.77351)` with float arithmetic; it is embedded
exactly over `ℚ` for the integral-average case (in the states the claims
evaluate, `h` divides `sum(R)`, the power is an exact power of two, and
the value is far from a truncation boundary, so IEEE-double and exact
evaluation agree).  `int()` truncates toward zero, which is `Int.floor`
on these nonnegative values.  The `if not R` guard of the source returns
`0` only for an empty `R` list. -/
def estimateDistinctCount (s : State) : Int :=
  if s.R = [] then 0
  else Int.floor ((2 ^ (s.R.sum / s.numHashFunctions) : ℚ) / (77351 / 100000 : ℚ))

end FlajoletMartin

namespace AMSMomentEstimator

/-- One AMS estimator: its random seed, running signed sum, and the
per-item sign memo. -/
structure Estimator where
  seed : Nat
  sumOfRandomVariables : Int
  randomVariables : List (String × Int)
deriving Repr, DecidableEq

/-- State of `AMSMomentEstimator`. -/
structure State where
  numEstimators : Nat
  X : List Estimator
deriving Repr, DecidableEq

/-- The constructor `AMSMomentEstimator.__init__(num_estimators)`: raises
`ValueError` unless `num_estimators > 0`, then builds one zeroed estimator
per randomly drawn seed (randomness is an explicit input). -/
def initE (numEstimators : Int) (seeds : List Nat) : Except PyError State :=
  if ¬(0 < numEstimators) then .error .valueError
  else .ok ⟨numEstimators.toNat, (seeds.take numEstimators.toNat).map (fun s => ⟨s, 0, []⟩)⟩

/-- `AMSMomentEstimator._get_random_variable`: `+1` if
`sha256(f"{item}-{estimator_seed}-rv")` is even, else `-1`. -/
def getRandomVariable (item : String) (estimatorSeed : Nat) : Int :=
  if SHA256.toNat (utf8 (item ++ "-" ++ Nat.repr estimatorSeed ++ "-rv")) % 2 = 0
  then 1 else -1

/-- The method `add(item)`: memoize the item's sign per estimator and add
it to that estimator's running sum. -/
def add (s : State) (item : String) : State :=
  { s with
    X := s.X.map (fun e =>
      let sign := (alookup e.randomVariables item).getD (getRandomVariable item e.seed)
      { e with
        sumOfRandomVariables := e.sumOfRandomVariables + sign,
        randomVariables :=
          match alookup e.randomVariables item with
          | some _ => e.randomVariables
          | none => e.randomVariables ++ [(item, getRandomVariable item e.seed)] } ) }

end AMSMomentEstimator

namespace Hasher

/-- A word character of the regex `\w` (ASCII range, the range the
repository's data uses): letters, digits and underscore. -/
def isWordChar (c : Char) : Bool := c.isAlphanum || c = '_'

/-- The token runs of `re.findall(r"\b\w+\b", text)`: maximal runs of
word characters.  `fuel`-bounded structural recursion (each step consumes
at least one character, so the length of the list suffices). -/
def wordsAux (fuel : Nat) (l : List Char) : List (List Char) :=
  match fuel, l with
  | 0, _ => []
  | _, [] => []
  | fuel + 1, c :: cs =>
    if isWordChar c then
      ((c :: cs).takeWhile isWordChar) :: wordsAux fuel ((c :: cs).dropWhile isWordChar)
    else wordsAux fuel cs

/-- `_get_feature_vector(text)`: tokenize `text.lower()` and SHA-1-hash
each token (`int(hashlib.sha1(word.encode('utf-8')).hexdigest(), 16)`). -/
def getFeatureVector (text : String) : List Nat :=
  (wordsAux text.toLower.data.length text.toLower.data).map
    (fun w => SHA1.toNat (utf8 (String.mk w)))

/-- Number of bits of the SimHash fingerprints (`SIMHASH_BITS = 64`). -/
def SIMHASH_BITS : Nat := 64

/-- `simhash_news_object(news_object)`: 0 for an empty headline; otherwise
bit `i` of the fingerprint is set iff the signed count of features with
bit `i` set (counting +1) versus unset (counting -1) is `>= 0`. -/
def simhashNewsObject (a : Article) : Nat :=
  if a.headline = "" then 0
  else
    let features := getFeatureVector a.headline
    (List.range SIMHASH_BITS).foldl
      (fun sv i =>
        let v : Int := features.foldl
          (fun acc fh => if (fh >>> i) &&& 1 = 1 then acc + 1 else acc - 1) 0
        if 0 ≤ v then sv ||| (1 <<< i) else sv) 0

/-- The popcount loop of `get_hamming_distance` (Brian Kernighan:
`x &= x - 1` until zero), `fuel`-bounded; `fuel = x` suffices since the
loop runs once per set bit. -/
def hamAux (fuel x : Nat) : Nat :=
  match fuel with
  | 0 => 0
  | fuel + 1 => if x = 0 then 0 else 1 + hamAux fuel (x &&& (x - 1))

/-- `get_hamming_distance(hash1, hash2)`: the popcount of `hash1 ^ hash2`. -/
def getHammingDistance (h1 h2 : Nat) : Nat :=
  hamAux (h1 ^^^ h2) (h1 ^^^ h2)

end Hasher

namespace SimHashTendencyAnalyzer

/-- State of `SimHashTendencyAnalyzer`: the Hamming threshold and the
insertion-ordered `defaultdict(list)` of buckets, keyed by representative
fingerprint. -/
structure State where
  similarityThreshold : Int
  buckets : List (Nat × List Article)
deriving Repr, DecidableEq

/-- The constructor (`similarity_threshold=15` by default); no checks. -/
def init (similarityThreshold : Int) : State :=
  ⟨similarityThreshold, []⟩

/-- Python `self.buckets[key].append(article)` on the `defaultdict(list)`:
append to the first entry with this key, or create the entry at the end. -/
def bucketAppend : List (Nat × List Article) → Nat → Article → List (Nat × List Article)
  | [], k, a => [(k, [a])]
  | (k1, l) :: rest, k, a =>
    if k1 = k then (k1, l ++ [a]) :: rest else (k1, l) :: bucketAppend rest k a

/-- The method `add_article(article)`: compute the fingerprint, scan the
bucket representatives in insertion order, append to the first one within
`similarity_threshold` Hamming distance, else `buckets[fingerprint].append`. -/
def addArticle (s : State) (article : Article) : State :=
  let h := Hasher.simhashNewsObject article
  match s.buckets.find?
      (fun b => decide ((Hasher.getHammingDistance h b.1 : Int) ≤ s.similarityThreshold)) with
  | some b => { s with buckets := bucketAppend s.buckets b.1 article }
  | none => { s with buckets := bucketAppend s.buckets h article }

/-- Run a sequence of `add_article` calls. -/
def exec (s : State) (articles : List Article) : State :=
  articles.foldl addArticle s

end SimHashTendencyAnalyzer

namespace MarkovChainService

/-- Increment on a `defaultdict(int)`: bump the entry, creating it (at the
end, in insertion order) with value 1 when absent. -/
def bump : List (String × Nat) → String → List (String × Nat)
  | [], k => [(k, 1)]
  | (k1, n) :: rest, k =>
    if k1 = k then (k1, n + 1) :: rest else (k1, n) :: bump rest k

/-- Increment on the nested `defaultdict(lambda: defaultdict(int))` of
transition counts. -/
def bump2 : List (String × List (String × Nat)) → String → String →
    List (String × List (String × Nat))
  | [], k1, k2 => [(k1, [(k2, 1)])]
  | (k, m) :: rest, k1, k2 =>
    if k = k1 then (k, bump m k2) :: rest else (k, m) :: bump2 rest k1 k2

/-- The consecutive category pairs of the date-ordered article sequence
(the loop over `prev_article`/`article`). -/
def pairsOf (cats : List String) : List (String × String) :=
  cats.zip cats.tail

/-- The transition-counting loop of `calculate_transition_matrix`:
`transitions[from][to] += 1` and `category_counts[from] += 1` per
consecutive pair. -/
def countTransitions (cats : List String) :
    List (String × List (String × Nat)) × List (String × Nat) :=
  (pairsOf cats).foldl (fun tc p => (bump2 tc.1 p.1 p.2, bump tc.2 p.1)) ([], [])

/-- Python `round(x, 4)` (round half to even at the 4th decimal), embedded
exactly over `ℚ`: the source rounds the IEEE double `count / total`; exact
and floating evaluation agree except when the exact quotient lies within
double-rounding error of a tie at the 4th decimal. -/
def pyRound4 (q : ℚ) : ℚ :=
  let scaled := q * 10000
  let f : ℤ := Int.floor scaled
  let r := scaled - f
  (if r < 1 / 2 then (f : ℚ)
   else if 1 / 2 < r then (f : ℚ) + 1
   else if f % 2 = 0 then (f : ℚ) else (f : ℚ) + 1) / 10000

/-- `MarkovChainService.calculate_transition_matrix()`, as a function of
the category sequence ordered by `datePublished` (the record store is the
excluded collaborator that delivers it): `{}` for fewer than 2 articles,
else each transition count divided by the from-category total, rounded. -/
def calcTransitionMatrix (cats : List String) :
    List (String × List (String × ℚ)) :=
  if cats.length < 2 then []
  else
    (countTransitions cats).1.map (fun ft =>
      (ft.1, ft.2.map (fun tn =>
        (tn.1, pyRound4 ((tn.2 : ℚ) /
          ((alookup (countTransitions cats).2 ft.1).getD 0 : ℚ))))))

/-- A node of the exposed graph: category id, capitalized label, and the
category's article count. -/
structure Node where
  id : String
  label : String
  count : Nat
deriving Repr, DecidableEq

/-- An edge of the exposed graph: from, to, and the rounded probability. -/
structure Edge where
  from1 : String
  to1 : String
  probability : ℚ
deriving Repr, DecidableEq

/-- The exposed graph data. -/
structure GraphData where
  nodes : List Node
  edges : List Edge
deriving Repr, DecidableEq

/-- Python `str.capitalize()` for the ASCII labels in use. -/
def capitalize (s : String) : String :=
  match s.data with
  | [] => ""
  | c :: cs => String.mk (c.toUpper :: cs.map Char.toLower)

/-- `MarkovChainService.get_markov_graph_data()`: empty graph for an empty
matrix; else one node per distinct category (sorted), carrying the
category's total article count, and one edge per matrix entry. -/
def getMarkovGraphData (cats : List String) : GraphData :=
  let tm := calcTransitionMatrix cats
  if tm.isEmpty then ⟨[], []⟩
  else
    let allCategories :=
      (tm.foldl (fun acc ft => acc ++ [ft.1] ++ ft.2.map (fun tn => tn.1)) []).dedup
    let nodes := (allCategories.mergeSort (fun a b => a ≤ b)).map
      (fun c => Node.mk c (capitalize c) (cats.count c))
    let edges := tm.foldl
      (fun acc ft => acc ++ ft.2.map (fun tn => Edge.mk ft.1 tn.1 tn.2)) []
    ⟨nodes, edges⟩

end MarkovChainService

namespace TrendAnalyzer

/-- The counter cell that `item` hashes to in row `i` (the value
`sketch[i][hash_i(item) % width]` that both `add` and `estimate` address). -/
def cell (s : State) (item : String) (i : Nat) : Nat :=
  (s.sketch.getD i []).getD (hashFn item i % s.width) 0

end TrendAnalyzer

namespace SimHashTendencyAnalyzer

/-- Number of occurrences of a record across all bucket member lists. -/
def memberCount (s : State) (x : Article) : Nat :=
  ((s.buckets.map (fun b => b.2)).flatten).count x

/-- Whether a bucket representative is within the analyzer's similarity
threshold of the article's fingerprint (the source's join test). -/
def qualifies (t : Int) (a : Article) (k : Nat) : Prop :=
  (Hasher.getHammingDistance (Hasher.simhashNewsObject a) k : Int) ≤ t

instance (t : Int) (a : Article) (k : Nat) : Decidable (qualifies t a k) := by
  unfold qualifies; infer_instance

end SimHashTendencyAnalyzer

namespace MarkovChainService

/-- The spec-side transition count: occurrences of the consecutive pair
`(a, b)` in the category sequence. -/
def pairCount (cats : List String) (a b : String) : Nat :=
  (pairsOf cats).count (a, b)

/-- The spec-side total number of observed transitions out of `a`. -/
def outCount (cats : List String) (a : String) : Nat :=
  (pairsOf cats).countP (fun p => p.1 == a)

/-- Lookup of the `(a, b)` entry of the nested transition matrix. -/
def lookup2 (tm : List (String × List (String × ℚ))) (a b : String) : Option ℚ :=
  (alookup tm a).bind (fun m => alookup m b)

/-- Lookup of the `(a, b)` entry of the nested transition-count map. -/
def lookup2N (tr : List (String × List (String × Nat))) (a b : String) : Option Nat :=
  (alookup tr a).bind (fun m => alookup m b)

end MarkovChainService

end Streaming

/-! ## Theorems -/

namespace Streaming

theorem getD_set_self {α : Type} {l : List α} {i : Nat} (a d : α) (h : i < l.length) :
    (l.set i a).getD i d = a := by
  simp [List.getD_eq_getElem?_getD, List.getElem?_set_self', List.getElem?_eq_getElem h]

theorem getD_set_ne {α : Type} {l : List α} {i j : Nat} (a d : α) (h : i ≠ j) :
    (l.set i a).getD j d = l.getD j d := by
  simp [List.getD_eq_getElem?_getD, List.getElem?_set_ne h]

theorem getD_set_oob {α : Type} {l : List α} {i : Nat} (a : α) (h : l.length ≤ i) :
    l.set i a = l :=
  List.set_eq_of_length_le h

namespace TrendAnalyzer

theorem bumpCell_length (sk : List (List Nat)) (i idx : Nat) :
    (bumpCell sk i idx).length = sk.length := by
  simp [bumpCell]

theorem bumpCell_row_length (sk : List (List Nat)) (i idx j : Nat) :
    ((bumpCell sk i idx).getD j []).length = (sk.getD j []).length := by
  unfold bumpCell
  by_cases hij : i = j
  · subst hij
    by_cases hi : i < sk.length
    · rw [getD_set_self _ _ hi, List.length_set]
    · rw [getD_set_oob _ (Nat.le_of_not_lt hi)]
  · rw [getD_set_ne _ _ hij]

theorem bumpCell_getD_le (sk : List (List Nat)) (i idx j c : Nat) :
    (sk.getD j []).getD c 0 ≤ ((bumpCell sk i idx).getD j []).getD c 0 := by
  unfold bumpCell
  by_cases hij : i = j
  · subst hij
    by_cases hi : i < sk.length
    · rw [getD_set_self _ _ hi]
      by_cases hc : idx = c
      · subst hc
        by_cases hidx : idx < (sk.getD i []).length
        · rw [getD_set_self _ _ hidx]; omega
        · rw [getD_set_oob _ (Nat.le_of_not_lt hidx)]
      · rw [getD_set_ne _ _ hc]
    · rw [getD_set_oob _ (Nat.le_of_not_lt hi)]
  · rw [getD_set_ne _ _ hij]

theorem bumpCell_getD_self (sk : List (List Nat)) (i idx : Nat)
    (hi : i < sk.length) (hidx : idx < (sk.getD i []).length) :
    ((bumpCell sk i idx).getD i []).getD idx 0 = (sk.getD i []).getD idx 0 + 1 := by
  unfold bumpCell
  rw [getD_set_self _ _ hi, getD_set_self _ _ hidx]

theorem foldl_bump_le (r : List Nat) (f : Nat → Nat) (sk : List (List Nat)) (j c : Nat) :
    (sk.getD j []).getD c 0 ≤
      ((r.foldl (fun sk i => bumpCell sk i (f i)) sk).getD j []).getD c 0 := by
  induction r generalizing sk with
  | nil => simp
  | cons a t ih =>
    simp only [List.foldl_cons]
    exact le_trans (bumpCell_getD_le sk a (f a) j c) (ih (bumpCell sk a (f a)))

theorem foldl_bump_length (r : List Nat) (f : Nat → Nat) (sk : List (List Nat)) :
    (r.foldl (fun sk i => bumpCell sk i (f i)) sk).length = sk.length := by
  induction r generalizing sk with
  | nil => rfl
  | cons a t ih =>
    simp only [List.foldl_cons]
    rw [ih, bumpCell_length]

theorem foldl_bump_row_length (r : List Nat) (f : Nat → Nat) (sk : List (List Nat)) (j : Nat) :
    ((r.foldl (fun sk i => bumpCell sk i (f i)) sk).getD j []).length =
      (sk.getD j []).length := by
  induction r generalizing sk with
  | nil => rfl
  | cons a t ih =>
    simp only [List.foldl_cons]
    rw [ih, bumpCell_row_length]

theorem foldl_bump_mem (r : List Nat) (f : Nat → Nat) (sk : List (List Nat)) (i : Nat)
    (hmem : i ∈ r) (hi : i < sk.length) (hidx : f i < (sk.getD i []).length) :
    (sk.getD i []).getD (f i) 0 + 1 ≤
      ((r.foldl (fun sk j => bumpCell sk j (f j)) sk).getD i []).getD (f i) 0 := by
  induction r generalizing sk with
  | nil => cases hmem
  | cons a t ih =>
    simp only [List.foldl_cons]
    by_cases ha : a = i
    · subst ha
      calc (sk.getD a []).getD (f a) 0 + 1
          = ((bumpCell sk a (f a)).getD a []).getD (f a) 0 :=
            (bumpCell_getD_self sk a (f a) hi hidx).symm
        _ ≤ _ := foldl_bump_le t f _ a (f a)
    · have hmem2 : i ∈ t := by
        rcases List.mem_cons.mp hmem with h | h
        · exact absurd h.symm ha
        · exact h
      have h1 : i < (bumpCell sk a (f a)).length := by rw [bumpCell_length]; exact hi
      have h2 : f i < ((bumpCell sk a (f a)).getD i []).length := by
        rw [bumpCell_row_length]; exact hidx
      calc (sk.getD i []).getD (f i) 0 + 1
          ≤ ((bumpCell sk a (f a)).getD i []).getD (f i) 0 + 1 := by
            have := bumpCell_getD_le sk a (f a) i (f i); omega
        _ ≤ _ := ih _ hmem2 h1 h2

end TrendAnalyzer

end Streaming

namespace Streaming

theorem foldl_min_le_init {α β : Type} [LinearOrder β] (l : List α) (g : α → β) (b : β) :
    l.foldl (fun m a => min m (g a)) b ≤ b := by
  induction l generalizing b with
  | nil => exact le_refl b
  | cons a t ih =>
    simp only [List.foldl_cons]
    exact le_trans (ih (min b (g a))) (min_le_left _ _)

theorem foldl_min_le_elem {α β : Type} [LinearOrder β] {l : List α} (g : α → β) (b : β)
    {x : α} (hx : x ∈ l) : l.foldl (fun m a => min m (g a)) b ≤ g x := by
  induction l generalizing b with
  | nil => cases hx
  | cons a t ih =>
    simp only [List.foldl_cons]
    rcases List.mem_cons.mp hx with h | h
    · subst h
      exact le_trans (foldl_min_le_init t g _) (min_le_right _ _)
    · exact ih _ h

theorem le_foldl_min {α β : Type} [LinearOrder β] {l : List α} (g : α → β) {b c : β}
    (hb : c ≤ b) (h : ∀ x ∈ l, c ≤ g x) : c ≤ l.foldl (fun m a => min m (g a)) b := by
  induction l generalizing b with
  | nil => exact hb
  | cons a t ih =>
    simp only [List.foldl_cons]
    exact ih (le_min hb (h a (List.mem_cons_self a t))) (fun x hx => h x (List.mem_cons_of_mem a hx))

theorem foldl_min_cases {α β : Type} [LinearOrder β] (l : List α) (g : α → β) (b : β) :
    l.foldl (fun m a => min m (g a)) b = b ∨ ∃ x ∈ l, l.foldl (fun m a => min m (g a)) b = g x := by
  induction l generalizing b with
  | nil => exact Or.inl rfl
  | cons a t ih =>
    simp only [List.foldl_cons]
    rcases ih (min b (g a)) with h | ⟨x, hx, h⟩
    · rcases min_choice b (g a) with hm | hm
      · exact Or.inl (h.trans hm)
      · exact Or.inr ⟨a, List.mem_cons_self a t, h.trans hm⟩
    · exact Or.inr ⟨x, List.mem_cons_of_mem a hx, h⟩

namespace TrendAnalyzer

theorem cell_init (w d : Nat) (item : String) (i : Nat) (hi : i < d) :
    cell (init w d) item i = 0 := by
  unfold cell init
  simp [List.getD_eq_getElem?_getD, List.getElem?_replicate, hi]
  split <;> simp

theorem exec_spec (items : List String) (s : State) (hwidth : s.width ≠ 0) (item : String)
    (hwf1 : s.sketch.length = s.depth)
    (hwf2 : ∀ j, j < s.depth → (s.sketch.getD j []).length = s.width) :
    ∃ s2 : State, exec s items = .ok s2 ∧ s2.width = s.width ∧ s2.depth = s.depth ∧
      s2.sketch.length = s2.depth ∧
      (∀ j, j < s2.depth → (s2.sketch.getD j []).length = s2.width) ∧
      ∀ i, i < s.depth → cell s item i + items.count item ≤ cell s2 item i := by
  induction items generalizing s with
  | nil =>
    refine ⟨s, rfl, rfl, rfl, hwf1, hwf2, fun i _ => ?_⟩
    simp
  | cons y rest ih =>
    set s1 : State := { s with sketch := addRows s y } with hs1
    have hw1 : s1.width = s.width := rfl
    have hd1 : s1.depth = s.depth := rfl
    have hlen1 : s1.sketch.length = s1.depth := by
      simp only [hs1, addRows]
      rw [foldl_bump_length]
      exact hwf1
    have hrow1 : ∀ j, j < s1.depth → (s1.sketch.getD j []).length = s1.width := by
      intro j hj
      simp only [hs1, addRows]
      rw [foldl_bump_row_length]
      exact hwf2 j hj
    have hstep : ∀ i, i < s.depth →
        cell s item i + (if y = item then 1 else 0) ≤ cell s1 item i := by
      intro i hi
      by_cases hy : y = item
      · subst hy
        simp only [if_pos rfl]
        have hmem : i ∈ List.range s.depth := List.mem_range.mpr hi
        have hilen : i < s.sketch.length := by rw [hwf1]; exact hi
        have hidx : hashFn y i % s.width < (s.sketch.getD i []).length := by
          rw [hwf2 i hi]
          exact Nat.mod_lt _ (Nat.pos_of_ne_zero hwidth)
        exact foldl_bump_mem (List.range s.depth) (fun j => hashFn y j % s.width) s.sketch i
          hmem hilen hidx
      · simp only [if_neg hy, Nat.add_zero]
        exact foldl_bump_le (List.range s.depth) (fun j => hashFn y j % s.width) s.sketch i _
    have hadd : add s y = Except.ok s1 := by simp [add, hwidth]
    have hexec : exec s (y :: rest) = exec s1 rest := by
      rw [exec, List.foldlM_cons, hadd]
      rfl
    rcases ih s1 hwidth hlen1 hrow1 with ⟨s2, h2exec, h2w, h2d, h2len, h2row, h2cell⟩
    refine ⟨s2, by rw [hexec]; exact h2exec, by rw [h2w, hw1], by rw [h2d, hd1],
      h2len, h2row, fun i hi => ?_⟩
    have hi1 : i < s1.depth := by rw [hd1]; exact hi
    have := h2cell i hi1
    have := hstep i hi
    have hcount : (y :: rest).count item = rest.count item + (if y = item then 1 else 0) := by
      by_cases hy : y = item
      · subst hy; simp [List.count_cons]
      · simp [List.count_cons, hy]
    omega

end TrendAnalyzer

end Streaming

namespace Streaming

/-- C1: Count-Min sketch one-sided error.  For every width `> 0`, depth
`> 0`, and sequence of `add` calls from a fresh `TrendAnalyzer`, the run
succeeds, and `estimate(item)` returns the minimum over the `depth` rows of
the counter cell that `item` hashes to in that row (it is a lower bound of
every such cell and attains one of them), and this value is at least the
number of `add` calls made for `item`. -/
theorem countMin_estimate_lower_bound (w d : Nat) (hw : 0 < w) (hd : 0 < d)
    (items : List String) (item : String) :
    ∃ s : TrendAnalyzer.State,
      TrendAnalyzer.exec (TrendAnalyzer.init w d) items = .ok s ∧
      ∃ v : WithTop Nat, TrendAnalyzer.estimate s item = .ok v ∧
        (∀ i, i < d → v ≤ (TrendAnalyzer.cell s item i : WithTop Nat)) ∧
        (∃ i, i < d ∧ v = (TrendAnalyzer.cell s item i : WithTop Nat)) ∧
        (items.count item : WithTop Nat) ≤ v := by
  have hwidth : (TrendAnalyzer.init w d).width ≠ 0 := by
    simp only [TrendAnalyzer.init]
    omega
  have hwf1 : (TrendAnalyzer.init w d).sketch.length = (TrendAnalyzer.init w d).depth := by
    simp [TrendAnalyzer.init]
  have hwf2 : ∀ j, j < (TrendAnalyzer.init w d).depth →
      ((TrendAnalyzer.init w d).sketch.getD j []).length = (TrendAnalyzer.init w d).width := by
    intro j hj
    simp only [TrendAnalyzer.init] at hj ⊢
    rw [List.getD_eq_getElem?_getD, List.getElem?_replicate, if_pos hj]
    simp
  obtain ⟨s, hexec, hsw, hsd, _, _, hcell⟩ :=
    TrendAnalyzer.exec_spec items (TrendAnalyzer.init w d) hwidth item hwf1 hwf2
  have hsw' : s.width = w := hsw
  have hsd' : s.depth = d := hsd
  have hest : TrendAnalyzer.estimate s item =
      .ok ((List.range s.depth).foldl
        (fun m i => min m ((TrendAnalyzer.cell s item i : Nat) : WithTop Nat)) ⊤) := by
    rw [TrendAnalyzer.estimate, if_neg]
    · rfl
    · rw [hsw']
      rintro ⟨h0, _⟩
      omega
  refine ⟨s, hexec, _, hest, ?_, ?_, ?_⟩
  · intro i hi
    exact foldl_min_le_elem _ _ (List.mem_range.mpr (by omega))
  · rcases foldl_min_cases (List.range s.depth)
      (fun i => ((TrendAnalyzer.cell s item i : Nat) : WithTop Nat)) ⊤ with h | ⟨i, hi, h⟩
    · exfalso
      have h0 : (0 : Nat) ∈ List.range s.depth := List.mem_range.mpr (by omega)
      have hle := foldl_min_le_elem
        (fun i => ((TrendAnalyzer.cell s item i : Nat) : WithTop Nat)) (⊤ : WithTop Nat) h0
      rw [h] at hle
      exact (WithTop.coe_ne_top (top_le_iff.mp hle)).elim
    · exact ⟨i, by have := List.mem_range.mp hi; omega, h⟩
  · apply le_foldl_min _ le_top
    intro i hi
    have hi' : i < s.depth := List.mem_range.mp hi
    have hzero : TrendAnalyzer.cell (TrendAnalyzer.init w d) item i = 0 :=
      TrendAnalyzer.cell_init w d item i (by omega)
    have hbound := hcell i (by omega)
    rw [hzero] at hbound
    have hnat : items.count item ≤ TrendAnalyzer.cell s item i := by omega
    exact_mod_cast hnat

/-- Witness for C1 at width 5, depth 2, trace `["a", "a", "b"]`, item `"a"`. -/
theorem countMin_estimate_lower_bound_spot :
    0 < 5 ∧ 0 < 2 ∧
    ∃ s : TrendAnalyzer.State,
      TrendAnalyzer.exec (TrendAnalyzer.init 5 2) ["a", "a", "b"] = .ok s ∧
      ∃ v : WithTop Nat, TrendAnalyzer.estimate s "a" = .ok v ∧
        (∀ i, i < 2 → v ≤ (TrendAnalyzer.cell s "a" i : WithTop Nat)) ∧
        (∃ i, i < 2 ∧ v = (TrendAnalyzer.cell s "a" i : WithTop Nat)) ∧
        ((["a", "a", "b"].count "a" : Nat) : WithTop Nat) ≤ v :=
  ⟨by decide, by decide, countMin_estimate_lower_bound 5 2 (by decide) (by decide) ["a", "a", "b"] "a"⟩

end Streaming

namespace Streaming

namespace BloomFilter

theorem foldl_or_testBit_mono (l : List Nat) (g : Nat → Nat) (bits : Nat) (b : Nat)
    (h : bits.testBit b = true) :
    (l.foldl (fun acc i => acc ||| (1 <<< g i)) bits).testBit b = true := by
  induction l generalizing bits with
  | nil => exact h
  | cons a t ih =>
    simp only [List.foldl_cons]
    exact ih _ (by simp [Nat.testBit_or, h])

theorem foldl_or_testBit_mem (l : List Nat) (g : Nat → Nat) (bits : Nat) {j : Nat}
    (hj : j ∈ l) :
    (l.foldl (fun acc i => acc ||| (1 <<< g i)) bits).testBit (g j) = true := by
  induction l generalizing bits with
  | nil => cases hj
  | cons a t ih =>
    simp only [List.foldl_cons]
    rcases List.mem_cons.mp hj with h | h
    · subst h
      apply foldl_or_testBit_mono
      simp [Nat.testBit_or, Nat.one_shiftLeft, Nat.testBit_two_pow_self]
    · exact ih _ h

theorem add_testBit_mono {s : State} {x : String} {b : Nat}
    (h : s.bitArray.testBit b = true) : ((add s x).1.bitArray).testBit b = true := by
  unfold add
  split
  · exact h
  · exact foldl_or_testBit_mono _ _ _ _ h

theorem exec_testBit_mono (items : List String) (s : State) {b : Nat}
    (h : s.bitArray.testBit b = true) :
    ((exec s items).bitArray).testBit b = true := by
  induction items generalizing s with
  | nil => exact h
  | cons y t ih =>
    simp only [exec, List.foldl_cons]
    exact ih _ (add_testBit_mono h)

theorem add_sets_bits {s : State} {x : String} (hcap : s.count < s.capacity) (i : Nat)
    (hi : i < s.numHashes) :
    ((add s x).1.bitArray).testBit (hash x i % s.numBits) = true := by
  unfold add
  rw [if_neg (by omega)]
  exact foldl_or_testBit_mem _ _ _ (List.mem_range.mpr hi)

theorem exec_preserves_config (items : List String) (s : State) :
    (exec s items).numBits = s.numBits ∧ (exec s items).numHashes = s.numHashes := by
  induction items generalizing s with
  | nil => exact ⟨rfl, rfl⟩
  | cons y t ih =>
    simp only [exec, List.foldl_cons]
    have h1 : ((add s y).1).numBits = s.numBits := by unfold add; split <;> rfl
    have h2 : ((add s y).1).numHashes = s.numHashes := by unfold add; split <;> rfl
    have := ih (add s y).1
    rw [h1, h2] at this
    exact this

/-- C2 (amended): a Bloom filter `contains(item)` is true iff all `k`
hashed bit positions of `item` are set; and for every item whose `add`
call ran while `count < capacity` (so the insertion actually happened, and
was not skipped by the capacity guard), `contains` returns true at every
later point of an add-only trace (no intervening `clear`). -/
theorem bloom_contains_after_insert :
    (∀ (s : State) (x : String),
      contains s x = true ↔
        ∀ i, i < s.numHashes → s.bitArray.testBit (hash x i % s.numBits) = true)
    ∧ ∀ (cap m k : Nat) (t1 t2 : List String) (x : String),
        (exec (init cap m k) t1).count < cap →
        contains (exec (init cap m k) (t1 ++ x :: t2)) x = true := by
  have hiff : ∀ (s : State) (x : String),
      contains s x = true ↔
        ∀ i, i < s.numHashes → s.bitArray.testBit (hash x i % s.numBits) = true := by
    intro s x
    unfold contains
    rw [List.all_eq_true]
    constructor
    · intro h i hi
      exact h i (List.mem_range.mpr hi)
    · intro h i hi
      exact h i (List.mem_range.mp hi)
  refine ⟨hiff, fun cap m k t1 t2 x hcap => ?_⟩
  have hsplit : exec (init cap m k) (t1 ++ x :: t2) =
      exec ((add (exec (init cap m k) t1) x).1) t2 := by
    rw [exec, List.foldl_append, List.foldl_cons]
    rfl
  set s1 := exec (init cap m k) t1 with hs1
  have hcap1 : s1.count < s1.capacity := by
    have hc : s1.capacity = cap := by
      have : ∀ (items : List String) (s : State), (exec s items).capacity = s.capacity := by
        intro items
        induction items with
        | nil => intro s; rfl
        | cons y t ih =>
          intro s
          simp only [exec, List.foldl_cons]
          have h1 : ((add s y).1).capacity = s.capacity := by unfold add; split <;> rfl
          have := ih (add s y).1
          simp only [exec] at this
          rw [this, h1]
      exact this t1 (init cap m k)
    rw [hc]
    exact hcap
  rw [hsplit]
  have hconf := exec_preserves_config t2 (add s1 x).1
  rw [hiff]
  intro i hi
  have hm : (exec (add s1 x).1 t2).numBits = s1.numBits := by
    have h1 : ((add s1 x).1).numBits = s1.numBits := by unfold add; split <;> rfl
    rw [hconf.1, h1]
  have hk : (exec (add s1 x).1 t2).numHashes = s1.numHashes := by
    have h1 : ((add s1 x).1).numHashes = s1.numHashes := by unfold add; split <;> rfl
    rw [hconf.2, h1]
  have hi2 : i < s1.numHashes := by rw [hk] at hi; exact hi
  rw [hm]
  apply exec_testBit_mono
  exact add_sets_bits hcap1 i hi2

/-- Witness for C2's amended theorem: a fresh filter with capacity 1,
`m = k = 2` (the parameters the source computes for capacity 1 and error
rate 0.5); the first `add` inserts, so `contains` holds. -/
theorem bloom_contains_after_insert_spot :
    (exec (init 1 2 2) []).count < 1 ∧
    contains (exec (init 1 2 2) ([] ++ "a" :: [])) "a" = true :=
  ⟨by decide, bloom_contains_after_insert.2 1 2 2 [] [] "a" (by decide)⟩

/-- Counterexample to C2 as stated: with capacity 1 and error rate 0.5 the
source computes `m = 2`, `k = 2`.  `add("c")` sets only bit 1 (both hashes
of `"c"` land there); `add("a")` is then skipped by the capacity guard, so
bit 0 — which `"a"` hashes to — stays clear and `contains("a")` is false
even though `add` was called on `"a"`. -/
theorem bloom_false_negative_at_capacity :
    contains (exec (init 1 2 2) ["c", "a"]) "a" = false := by decide

/-- C7: whenever `count >= capacity`, `add` is a pure no-op that only
emits the capacity warning: the returned state is the argument state
itself (bit array and count unchanged), and every later `contains` query
behaves exactly as before the call. -/
theorem bloom_capacity_noop (s : State) (x : String) (h : s.capacity ≤ s.count) :
    add s x = (s, true) ∧ ∀ y, contains (add s x).1 y = contains s y := by
  have hadd : add s x = (s, true) := by
    unfold add
    rw [if_pos h]
  exact ⟨hadd, fun y => by rw [hadd]⟩

/-- Witness for C7: the filter of capacity 1 after one insertion is at
capacity; adding `"a"` leaves the state untouched and warns. -/
theorem bloom_capacity_noop_spot :
    (exec (init 1 2 2) ["c"]).capacity ≤ (exec (init 1 2 2) ["c"]).count ∧
    add (exec (init 1 2 2) ["c"]) "a" = (exec (init 1 2 2) ["c"], true) :=
  ⟨by decide, (bloom_capacity_noop (exec (init 1 2 2) ["c"]) "a" (by decide)).1⟩

end BloomFilter

end Streaming

namespace Streaming

/-- C3: the k-smallest invariant fails on the code.  The two articles hash
with `hash("hb-cb") < hash("ha-ca")`; with `sample_size = 1` the claim
says the second (larger-hash) article must be discarded and the first
retained, but `heappushpop` on Python's min-heap evicts the smallest, so
the retained sample is exactly the larger-hash article.  This contradicts
the method's own comments ("keep the k smallest hashes", "if
current_article_hash < largest_hash_in_sample, replace"). -/
theorem minwise_retains_largest_hash :
    MinWiseSampler.articleHash ⟨"hb", "cb", "x"⟩ <
      MinWiseSampler.articleHash ⟨"ha", "ca", "x"⟩
    ∧ (do
        let s0 ← MinWiseSampler.initE 1
        let s1 ← MinWiseSampler.addArticle s0 ⟨"hb", "cb", "x"⟩ "k"
        let s2 ← MinWiseSampler.addArticle s1 ⟨"ha", "ca", "x"⟩ "k"
        MinWiseSampler.getSample s2 "k") = .ok [⟨"ha", "ca", "x"⟩] :=
  ⟨by decide, by decide⟩

/-- C6: `add_article` raises an uncaught `TypeError` on well-formed input.
Two distinct article dictionaries with the same headline and content (here
differing only in their category entry) have equal SHA-256 hashes, so the
heap's tuple comparison falls through to comparing the dicts, which Python
`<` does not support.  Repeating the literally identical article is fine
(dict equality short-circuits the comparison), as the first conjunct
shows on a full sample. -/
theorem minwise_add_raises_typeerror :
    (do
      let s0 ← MinWiseSampler.initE 1
      let s1 ← MinWiseSampler.addArticle s0 ⟨"h", "c", "x"⟩ "k"
      let s2 ← MinWiseSampler.addArticle s1 ⟨"h", "c", "x"⟩ "k"
      MinWiseSampler.getSample s2 "k") = .ok [⟨"h", "c", "x"⟩]
    ∧ (do
        let s0 ← MinWiseSampler.initE 2
        let s1 ← MinWiseSampler.addArticle s0 ⟨"h", "c", "x"⟩ "k"
        MinWiseSampler.addArticle s1 ⟨"h", "c", "y"⟩ "k") = .error .typeError :=
  ⟨by decide, by decide⟩

end Streaming

namespace Streaming

/-- Counterexample to C4 as stated: a freshly constructed estimator (one
hash function, no items added) returns `int((2**0.0)/0.77351) = 1`, not 0;
the `if not self.R` guard only fires for an empty `R` list, which the
`num_hash_functions > 0` validation makes unreachable. -/
theorem fm_estimate_empty_not_zero :
    FlajoletMartin.estimateDistinctCount (FlajoletMartin.init 64 1 [12345]) = 1 := by
  unfold FlajoletMartin.estimateDistinctCount FlajoletMartin.init
  rw [if_neg (by simp)]
  simp only [List.sum_replicate, smul_eq_mul, Nat.mul_zero, Nat.zero_div, pow_zero]
  rw [Int.floor_eq_iff]
  norm_num

/-- C4 (amended): `estimate_distinct_count` returns the truncation of
`2^(average of R) / α`; with no items added (freshly constructed or just
cleared, any positive number of hash functions, any seeds) this value is
`int(1/0.77351) = 1`, not 0; and whenever `R` is non-empty the result is
at least 1, so 0 is returned only for an empty `R` list. -/
theorem fm_estimate_fresh_value :
    (∀ (bits h : Nat) (seeds : List Nat), 0 < h →
      FlajoletMartin.estimateDistinctCount (FlajoletMartin.init bits h seeds) = 1)
    ∧ ∀ s : FlajoletMartin.State, s.R ≠ [] →
        1 ≤ FlajoletMartin.estimateDistinctCount s := by
  have hle : ∀ n : Nat, (1 : ℚ) ≤ (2 : ℚ) ^ n / (77351 / 100000 : ℚ) := by
    intro n
    rw [le_div_iff₀ (by norm_num)]
    have h1 : (1 : ℚ) ≤ (2 : ℚ) ^ n := by
      have : (1 : Nat) ≤ 2 ^ n := Nat.one_le_two_pow
      exact_mod_cast this
    linarith
  constructor
  · intro bits h seeds hh
    unfold FlajoletMartin.estimateDistinctCount FlajoletMartin.init
    rw [if_neg (by simp; omega)]
    simp only [List.sum_replicate, smul_eq_mul, Nat.mul_zero, Nat.zero_div, pow_zero]
    rw [Int.floor_eq_iff]
    norm_num
  · intro s hR
    unfold FlajoletMartin.estimateDistinctCount
    rw [if_neg hR]
    exact Int.le_floor.mpr (by exact_mod_cast hle (s.R.sum / s.numHashFunctions))

/-- Witness for C4's amended theorem at one hash function. -/
theorem fm_estimate_fresh_value_spot :
    0 < 1 ∧ FlajoletMartin.estimateDistinctCount (FlajoletMartin.init 32 1 [7]) = 1 :=
  ⟨by decide, fm_estimate_fresh_value.1 32 1 [7] (by decide)⟩

/-- Counterexample to C5 as stated: the Count-Min `TrendAnalyzer` performs
no construction-time validation.  Constructing it with width 0 (and depth
5) returns a normal instance (no `InvalidParameter` error exists in its
constructor), and the failure occurs only at add time, as a
`ZeroDivisionError` from `% self.width` in the row loop. -/
theorem trend_analyzer_unvalidated_construction :
    TrendAnalyzer.init 0 5 = ⟨0, 5, List.replicate 5 []⟩
    ∧ TrendAnalyzer.add (TrendAnalyzer.init 0 5) "news" = .error .zeroDivisionError := by
  constructor
  · decide
  · decide

theorem except_bind_ok {ε α β : Type} (a : α) (f : α → Except ε β) :
    ((Except.ok a : Except ε α) >>= f) = f a := rfl

theorem except_bind_error {ε α β : Type} (e : ε) (f : α → Except ε β) :
    ((Except.error e : Except ε α) >>= f) = Except.error e := rfl

theorem except_pure_bind {ε α β : Type} (a : α) (f : α → Except ε β) :
    ((pure a : Except ε α) >>= f) = f a := rfl

theorem bind_error_shape {α β : Type} (m : Except PyError α) (f : α → Except PyError β)
    (err : PyError)
    (hm : ∀ e, m = .error e → e ≠ .valueError)
    (hf : ∀ a e, f a = .error e → e ≠ .valueError)
    (h : (m >>= f) = .error err) : err ≠ .valueError := by
  cases hmm : m with
  | error e =>
    rw [hmm, except_bind_error] at h
    injection h with h2
    subst h2
    exact hm e hmm
  | ok a =>
    rw [hmm, except_bind_ok] at h
    exact hf a err h

namespace MinWiseSampler

theorem pyLtPair_error_eq (p q : Pair) (err : PyError) (h : pyLtPair p q = .error err) :
    err = .typeError := by
  unfold pyLtPair at h
  split_ifs at h
  simp_all

theorem siftdownLoop_error_shape : ∀ (fuel : Nat) (newitem : Pair) (heap : List Pair)
    (startpos pos : Nat) (err : PyError),
    siftdownLoop fuel newitem heap startpos pos = .error err → err ≠ .valueError := by
  intro fuel
  induction fuel with
  | zero =>
    intro newitem heap startpos pos err h
    simp only [siftdownLoop] at h
    split_ifs at h
    injection h with h2
    subst h2
    decide
  | succ fuel ih =>
    intro newitem heap startpos pos err h
    simp only [siftdownLoop] at h
    by_cases hsp : startpos < pos
    · rw [if_pos hsp] at h
      cases hget : heap[(pos - 1) / 2]? with
      | none =>
        rw [hget] at h
        injection h with h2
        subst h2
        decide
      | some parent =>
        rw [hget] at h
        refine bind_error_shape _ _ _ ?_ ?_ h
        · intro e he
          have h3 := pyLtPair_error_eq _ _ _ he
          subst h3
          decide
        · intro b e he
          cases b with
          | true =>
            rw [if_pos rfl] at he
            exact ih _ _ _ _ _ he
          | false =>
            rw [if_neg Bool.false_ne_true] at he
            exact Except.noConfusion he
    · rw [if_neg hsp] at h
      exact Except.noConfusion h

theorem siftdown_error_shape (heap : List Pair) (startpos pos : Nat) (err : PyError)
    (h : siftdown heap startpos pos = .error err) : err ≠ .valueError := by
  simp only [siftdown] at h
  cases hget : heap[pos]? with
  | none =>
    rw [hget] at h
    injection h with h2
    subst h2
    decide
  | some newitem =>
    rw [hget] at h
    refine bind_error_shape _ _ _ ?_ ?_ h
    · intro e he
      exact siftdownLoop_error_shape _ _ _ _ _ _ he
    · intro r e he
      exact Except.noConfusion he

theorem siftupLoop_error_shape : ∀ (fuel : Nat) (heap : List Pair) (pos endpos : Nat)
    (err : PyError), siftupLoop fuel heap pos endpos = .error err → err ≠ .valueError := by
  intro fuel
  induction fuel with
  | zero =>
    intro heap pos endpos err h
    simp only [siftupLoop] at h
    split_ifs at h
    injection h with h2
    subst h2
    decide
  | succ fuel ih =>
    intro heap pos endpos err h
    simp only [siftupLoop] at h
    by_cases hc : 2 * pos + 1 < endpos
    · rw [if_pos hc] at h
      by_cases hr : 2 * pos + 1 + 1 < endpos
      · rw [if_pos hr] at h
        cases h1 : heap[2 * pos + 1]? with
        | none =>
          rw [h1] at h
          injection h with h2
          subst h2
          decide
        | some c =>
          rw [h1] at h
          cases h2 : heap[2 * pos + 1 + 1]? with
          | none =>
            rw [h2] at h
            injection h with h3
            subst h3
            decide
          | some r =>
            rw [h2] at h
            refine bind_error_shape _ _ _ ?_ ?_ h
            · intro e2 he2
              have h4 := pyLtPair_error_eq _ _ _ he2
              subst h4
              decide
            · intro b e2 he2
              rw [except_pure_bind] at he2
              cases h3 : heap[if b = true then 2 * pos + 1 else 2 * pos + 1 + 1]? with
              | none =>
                rw [h3] at he2
                injection he2 with h4
                subst h4
                decide
              | some child =>
                rw [h3] at he2
                exact ih _ _ _ _ he2
      · rw [if_neg hr] at h
        rw [except_pure_bind] at h
        cases h3 : heap[2 * pos + 1]? with
        | none =>
          rw [h3] at h
          injection h with h4
          subst h4
          decide
        | some child =>
          rw [h3] at h
          exact ih _ _ _ _ h
    · rw [if_neg hc] at h
      exact Except.noConfusion h

theorem siftup_error_shape (heap : List Pair) (pos : Nat) (err : PyError)
    (h : siftup heap pos = .error err) : err ≠ .valueError := by
  simp only [siftup] at h
  cases hget : heap[pos]? with
  | none =>
    rw [hget] at h
    injection h with h2
    subst h2
    decide
  | some newitem =>
    rw [hget] at h
    refine bind_error_shape _ _ _ ?_ ?_ h
    · intro e he
      exact siftupLoop_error_shape _ _ _ _ _ he
    · intro r e he
      exact siftdown_error_shape _ _ _ _ he

theorem heappush_error_shape (heap : List Pair) (item : Pair) (err : PyError)
    (h : heappush heap item = .error err) : err ≠ .valueError :=
  siftdown_error_shape _ _ _ _ h

theorem heappushpop_error_shape (heap : List Pair) (item : Pair) (err : PyError)
    (h : heappushpop heap item = .error err) : err ≠ .valueError := by
  simp only [heappushpop] at h
  cases hget : heap[0]? with
  | none =>
    rw [hget] at h
    exact Except.noConfusion h
  | some h0 =>
    rw [hget] at h
    refine bind_error_shape _ _ _ ?_ ?_ h
    · intro e he
      have h2 := pyLtPair_error_eq _ _ _ he
      subst h2
      decide
    · intro b e he
      cases b with
      | true =>
        rw [if_pos rfl] at he
        exact siftup_error_shape _ _ _ he
      | false =>
        rw [if_neg Bool.false_ne_true] at he
        exact Except.noConfusion he

theorem addArticle_no_value_error (s : State) (article : Article) (category : String) :
    addArticle s article category ≠ .error .valueError := by
  intro h
  simp only [addArticle] at h
  by_cases hlen : ((alookup s.categorySamples category).getD []).length < s.sampleSize
  · rw [if_pos hlen] at h
    exact bind_error_shape _ _ _
      (fun e he => heappush_error_shape _ _ _ he)
      (fun a e he => Except.noConfusion he) h rfl
  · rw [if_neg hlen] at h
    exact bind_error_shape _ _ _
      (fun e he => heappushpop_error_shape _ _ _ he)
      (fun a e he => Except.noConfusion he) h rfl

end MinWiseSampler

/-- C5 (amended): `BloomFilter`, `MinWiseSampler`, `FlajoletMartin` and
`AMSMomentEstimator` validate eagerly — construction succeeds iff the
size parameters are positive and the error rate lies in (0,1), and
otherwise raises `ValueError` at construction; after construction no
`ValueError` can arise at add time (the adds of the Bloom filter,
Flajolet-Martin and AMS sketches are total functions of the embedding,
and the sampler's fallible `add_article` is proved never to return
`ValueError`).  The Count-Min `TrendAnalyzer` performs no
construction-time validation at all: with width 0 it constructs normally
and every `add` with positive depth fails at add time with
`ZeroDivisionError` (with depth 0 the add loop is empty and completes). -/
theorem sketch_validation_amended :
    (∀ (c : Int) (p : ℚ), BloomFilter.checkParams c p = .ok () ↔ 0 < p ∧ p < 1 ∧ 0 < c)
    ∧ (∀ k : Int, (∃ s, MinWiseSampler.initE k = .ok s) ↔ 0 < k)
    ∧ (∀ b h : Int, FlajoletMartin.checkParams b h = .ok () ↔ 0 < b ∧ 0 < h)
    ∧ (∀ (r : Int) (seeds : List Nat),
        (∃ s, AMSMomentEstimator.initE r seeds = .ok s) ↔ 0 < r)
    ∧ (∀ (s : MinWiseSampler.State) (article : Article) (category : String),
        MinWiseSampler.addArticle s article category ≠ .error .valueError)
    ∧ ∀ (d : Nat) (item : String), d ≠ 0 →
        TrendAnalyzer.add (TrendAnalyzer.init 0 d) item = .error .zeroDivisionError := by
  refine ⟨?_, ?_, ?_, ?_, ?_, ?_⟩
  · intro c p
    unfold BloomFilter.checkParams
    split_ifs with h1 h2 <;> simp_all
  · intro k
    unfold MinWiseSampler.initE
    split_ifs with h1 <;> simp_all
  · intro b h
    unfold FlajoletMartin.checkParams
    split_ifs with h1 h2 <;> simp_all
  · intro r seeds
    unfold AMSMomentEstimator.initE
    split_ifs with h1 <;> simp_all
  · exact MinWiseSampler.addArticle_no_value_error
  · intro d item hd
    simp [TrendAnalyzer.add, TrendAnalyzer.init, hd]

/-- Witness for C5's amended theorem, exercising the positive-depth
hypothesis of the Count-Min add-time failure at depth 5. -/
theorem sketch_validation_amended_spot :
    (5 : Nat) ≠ 0 ∧
    TrendAnalyzer.add (TrendAnalyzer.init 0 5) "news" = .error .zeroDivisionError :=
  ⟨by decide, sketch_validation_amended.2.2.2.2.2 5 "news" (by decide)⟩

end Streaming

namespace Streaming

namespace SimHashTendencyAnalyzer

theorem hamming_self (h : Nat) : Hasher.getHammingDistance h h = 0 := by
  unfold Hasher.getHammingDistance
  rw [Nat.xor_self]
  rfl

theorem find?_split {α : Type} (p : α → Bool) (l : List α) (x : α) (h : l.find? p = some x) :
    ∃ pre post, l = pre ++ x :: post ∧ p x = true ∧ ∀ y ∈ pre, p y = false := by
  induction l with
  | nil => cases h
  | cons a t ih =>
    cases hpa : p a with
    | true =>
      simp only [List.find?_cons, hpa] at h
      cases h
      exact ⟨[], t, rfl, hpa, fun y hy => absurd hy (List.not_mem_nil y)⟩
    | false =>
      simp only [List.find?_cons, hpa] at h
      rcases ih h with ⟨pre, post, heq, hx, hpre⟩
      refine ⟨a :: pre, post, by rw [heq]; rfl, hx, fun y hy => ?_⟩
      rcases List.mem_cons.mp hy with h1 | h1
      · subst h1
        exact hpa
      · exact hpre y h1

theorem bucketAppend_prefix (pre : List (Nat × List Article)) (k : Nat) (l : List Article)
    (post : List (Nat × List Article)) (a : Article) (hpre : ∀ p ∈ pre, p.1 ≠ k) :
    bucketAppend (pre ++ (k, l) :: post) k a = pre ++ (k, l ++ [a]) :: post := by
  induction pre with
  | nil => simp [bucketAppend]
  | cons q rest ih =>
    have hq : q.1 ≠ k := hpre q (List.mem_cons_self q rest)
    obtain ⟨q1, q2⟩ := q
    simp only [List.cons_append, bucketAppend, if_neg hq, List.append_eq]
    rw [ih (fun p hp => hpre p (List.mem_cons_of_mem (q1, q2) hp))]

theorem bucketAppend_fresh (bs : List (Nat × List Article)) (k : Nat) (a : Article)
    (hall : ∀ p ∈ bs, p.1 ≠ k) :
    bucketAppend bs k a = bs ++ [(k, [a])] := by
  induction bs with
  | nil => rfl
  | cons q rest ih =>
    have hq : q.1 ≠ k := hall q (List.mem_cons_self q rest)
    obtain ⟨q1, q2⟩ := q
    simp only [bucketAppend, if_neg hq, List.cons_append]
    rw [ih (fun p hp => hall p (List.mem_cons_of_mem (q1, q2) hp))]

theorem bucketAppend_cases (bs : List (Nat × List Article)) (k : Nat) (a : Article) :
    (∃ pre l post, bs = pre ++ (k, l) :: post ∧ (∀ p ∈ pre, p.1 ≠ k) ∧
       bucketAppend bs k a = pre ++ (k, l ++ [a]) :: post)
    ∨ ((∀ p ∈ bs, p.1 ≠ k) ∧ bucketAppend bs k a = bs ++ [(k, [a])]) := by
  induction bs with
  | nil => exact Or.inr ⟨fun p hp => absurd hp (List.not_mem_nil p), rfl⟩
  | cons q rest ih =>
    obtain ⟨q1, q2⟩ := q
    by_cases hq : q1 = k
    · subst hq
      refine Or.inl ⟨[], q2, rest, by simp, fun p hp => absurd hp (List.not_mem_nil p), ?_⟩
      simp [bucketAppend]
    · rcases ih with ⟨pre, l, post, heq, hpre, happ⟩ | ⟨hall, happ⟩
      · refine Or.inl ⟨(q1, q2) :: pre, l, post, by rw [heq]; rfl, ?_, ?_⟩
        · intro p hp
          rcases List.mem_cons.mp hp with h1 | h1
          · subst h1; exact hq
          · exact hpre p h1
        · simp only [bucketAppend, if_neg hq, List.cons_append]
          rw [happ]
      · refine Or.inr ⟨?_, ?_⟩
        · intro p hp
          rcases List.mem_cons.mp hp with h1 | h1
          · subst h1; exact hq
          · exact hall p h1
        · simp only [bucketAppend, if_neg hq, List.cons_append]
          rw [happ]

theorem addArticle_bucketAppend (s : State) (a : Article) :
    ∃ key, (addArticle s a).buckets = bucketAppend s.buckets key a ∧
      (key = Hasher.simhashNewsObject a ∨ ∃ b ∈ s.buckets, b.1 = key) := by
  simp only [addArticle]
  cases hfind : s.buckets.find? (fun b =>
      decide ((Hasher.getHammingDistance (Hasher.simhashNewsObject a) b.1 : Int) ≤
        s.similarityThreshold)) with
  | none => exact ⟨_, rfl, Or.inl rfl⟩
  | some b => exact ⟨b.1, rfl, Or.inr ⟨b, List.mem_of_find?_eq_some hfind, rfl⟩⟩

theorem count_one (a x : Article) : ([a] : List Article).count x = if a = x then 1 else 0 := by
  by_cases h : a = x <;> simp [List.count_cons, h]

theorem count_bucketAppend (bs : List (Nat × List Article)) (k : Nat) (a x : Article) :
    (((bucketAppend bs k a).map (fun b => b.2)).flatten).count x =
      ((bs.map (fun b => b.2)).flatten).count x + (if a = x then 1 else 0) := by
  induction bs with
  | nil =>
    simp [bucketAppend, count_one]
  | cons q rest ih =>
    obtain ⟨q1, q2⟩ := q
    by_cases hq : q1 = k
    · simp only [bucketAppend, if_pos hq, List.map_cons, List.flatten_cons,
        List.count_append, count_one]
      omega
    · simp only [bucketAppend, if_neg hq, List.map_cons, List.flatten_cons,
        List.count_append, ih]
      omega

theorem memberCount_exec (arts : List Article) (s : State) (x : Article) :
    memberCount (exec s arts) x = memberCount s x + arts.count x := by
  induction arts generalizing s with
  | nil => simp [exec]
  | cons a rest ih =>
    simp only [exec, List.foldl_cons]
    have hstep : memberCount (addArticle s a) x =
        memberCount s x + (if a = x then 1 else 0) := by
      rcases addArticle_bucketAppend s a with ⟨key, happ, _⟩
      unfold memberCount
      rw [happ, count_bucketAppend]
    have := ih (addArticle s a)
    simp only [exec] at this
    rw [this, hstep]
    have hc : (a :: rest).count x = rest.count x + (if a = x then 1 else 0) := by
      by_cases h : a = x <;> simp [List.count_cons, h]
    rw [hc]
    omega

/-- C8: the bucket clusterer partitions the stream.  Every record added
from a fresh clusterer occurs across the buckets exactly as often as it
was added (each add places it in exactly one bucket); and each `add`
joins the first bucket, in scan order over the current representatives,
whose representative fingerprint is within the (non-negative) similarity
threshold in Hamming distance, and when no bucket qualifies it creates
exactly one new bucket keyed by the record's own fingerprint. -/
theorem clusterer_first_match_partition (t : Int) (ht : 0 ≤ t) :
    (∀ (arts : List Article) (x : Article),
      memberCount (exec (init t) arts) x = arts.count x)
    ∧ ∀ (s : State) (a : Article), s.similarityThreshold = t →
        (∃ pre k l post, s.buckets = pre ++ (k, l) :: post ∧
          (Hasher.getHammingDistance (Hasher.simhashNewsObject a) k : Int) ≤ t ∧
          (∀ p ∈ pre,
            ¬((Hasher.getHammingDistance (Hasher.simhashNewsObject a) p.1 : Int) ≤ t)) ∧
          (addArticle s a).buckets = pre ++ (k, l ++ [a]) :: post)
        ∨ ((∀ p ∈ s.buckets,
             ¬((Hasher.getHammingDistance (Hasher.simhashNewsObject a) p.1 : Int) ≤ t)) ∧
           (addArticle s a).buckets = s.buckets ++ [(Hasher.simhashNewsObject a, [a])]) := by
  constructor
  · intro arts x
    have := memberCount_exec arts (init t) x
    simpa [memberCount, init] using this
  · intro s a hst
    subst hst
    simp only [addArticle]
    cases hfind : s.buckets.find? (fun b =>
        decide ((Hasher.getHammingDistance (Hasher.simhashNewsObject a) b.1 : Int) ≤
          s.similarityThreshold)) with
    | none =>
      have hall := List.find?_eq_none.mp hfind
      have hall2 : ∀ p ∈ s.buckets,
          ¬((Hasher.getHammingDistance (Hasher.simhashNewsObject a) p.1 : Int) ≤
            s.similarityThreshold) := by
        intro p hp
        have := hall p hp
        simpa using this
      refine Or.inr ⟨hall2, ?_⟩
      have hfresh : ∀ p ∈ s.buckets, p.1 ≠ Hasher.simhashNewsObject a := by
        intro p hp hcontra
        apply hall2 p hp
        rw [hcontra, hamming_self]
        exact_mod_cast ht
      exact bucketAppend_fresh s.buckets _ a hfresh
    | some b =>
      rcases find?_split _ s.buckets b hfind with ⟨pre, post, heq, hpb, hpre⟩
      have hpb2 : (Hasher.getHammingDistance (Hasher.simhashNewsObject a) b.1 : Int) ≤
          s.similarityThreshold := by simpa using hpb
      have hpre2 : ∀ p ∈ pre,
          ¬((Hasher.getHammingDistance (Hasher.simhashNewsObject a) p.1 : Int) ≤
            s.similarityThreshold) := by
        intro p hp
        have := hpre p hp
        simpa using this
      have hprekey : ∀ p ∈ pre, p.1 ≠ b.1 := by
        intro p hp hcontra
        exact hpre2 p hp (by rw [hcontra]; exact hpb2)
      refine Or.inl ⟨pre, b.1, b.2, post, by rw [heq], hpb2, hpre2, ?_⟩
      show bucketAppend s.buckets b.1 a = _
      rw [heq]
      exact bucketAppend_prefix pre b.1 b.2 post a hprekey

/-- Witness for C8 with the deployed threshold 15: a single empty-headline
record lands in exactly one bucket. -/
theorem clusterer_first_match_partition_spot :
    (0 : Int) ≤ 15 ∧
    memberCount (exec (init 15) [⟨"", "c", "k"⟩]) ⟨"", "c", "k"⟩ =
      ([⟨"", "c", "k"⟩] : List Article).count ⟨"", "c", "k"⟩ :=
  ⟨by decide, (clusterer_first_match_partition 15 (by decide)).1 [⟨"", "c", "k"⟩] ⟨"", "c", "k"⟩⟩

/-- C10: bucket representatives are immutable.  Every `add_article` either
appends the record to exactly one existing bucket — leaving every bucket
key and every other bucket's member list unchanged — or appends exactly
one new bucket at the end; and in every state reachable from a fresh
clusterer each bucket's key is the fingerprint of its first member. -/
theorem clusterer_buckets_frame :
    (∀ (s : State) (a : Article),
      (∃ pre k l post, s.buckets = pre ++ (k, l) :: post ∧
         (addArticle s a).buckets = pre ++ (k, l ++ [a]) :: post)
      ∨ (addArticle s a).buckets = s.buckets ++ [(Hasher.simhashNewsObject a, [a])])
    ∧ ∀ (t : Int) (arts : List Article) (k : Nat) (l : List Article),
        (k, l) ∈ (exec (init t) arts).buckets →
        ∃ a0 rest, l = a0 :: rest ∧ Hasher.simhashNewsObject a0 = k := by
  have hstep : ∀ (s : State) (a : Article),
      (∃ pre k l post, s.buckets = pre ++ (k, l) :: post ∧
         (addArticle s a).buckets = pre ++ (k, l ++ [a]) :: post)
      ∨ ((∀ p ∈ s.buckets, p.1 ≠ Hasher.simhashNewsObject a) ∧
         (addArticle s a).buckets = s.buckets ++ [(Hasher.simhashNewsObject a, [a])]) := by
    intro s a
    rcases addArticle_bucketAppend s a with ⟨key, happ, hkey⟩
    rcases bucketAppend_cases s.buckets key a with ⟨pre, l, post, heq, _, happ2⟩ |
      ⟨hall, happ2⟩
    · exact Or.inl ⟨pre, key, l, post, heq, by rw [happ, happ2]⟩
    · rcases hkey with hkey | ⟨b, hb, hbkey⟩
      · subst hkey
        exact Or.inr ⟨hall, by rw [happ, happ2]⟩
      · exact absurd hbkey (hall b hb)
  constructor
  · intro s a
    rcases hstep s a with ⟨pre, k, l, post, heq, happ⟩ | ⟨_, happ⟩
    · exact Or.inl ⟨pre, k, l, post, heq, happ⟩
    · exact Or.inr happ
  · intro t arts
    suffices hinv : ∀ (arts : List Article) (s : State),
        (∀ (k : Nat) (l : List Article), (k, l) ∈ s.buckets →
          ∃ a0 rest, l = a0 :: rest ∧ Hasher.simhashNewsObject a0 = k) →
        ∀ (k : Nat) (l : List Article), (k, l) ∈ (exec s arts).buckets →
          ∃ a0 rest, l = a0 :: rest ∧ Hasher.simhashNewsObject a0 = k by
      exact hinv arts (init t) (by intro k l h; cases h)
    intro arts
    induction arts with
    | nil => intro s hs; exact hs
    | cons a rest ih =>
      intro s hs
      simp only [exec, List.foldl_cons]
      apply ih (addArticle s a)
      intro k l hmem
      rcases hstep s a with ⟨pre, k2, l2, post, heq, happ⟩ | ⟨_, happ⟩
      · rw [happ] at hmem
        rcases List.mem_append.mp hmem with h1 | h1
        · refine hs k l ?_
          rw [heq]
          exact List.mem_append.mpr (Or.inl h1)
        · rcases List.mem_cons.mp h1 with h2 | h2
          · injection h2 with hk hl
            have hmem2 : (k2, l2) ∈ s.buckets := by
              rw [heq]
              exact List.mem_append.mpr (Or.inr (List.mem_cons_self (k2, l2) post))
            rcases hs k2 l2 hmem2 with ⟨a0, r0, hl2, hsim⟩
            refine ⟨a0, r0 ++ [a], ?_, ?_⟩
            · rw [hl, hl2]
              rfl
            · rw [hsim, hk]
          · refine hs k l ?_
            rw [heq]
            exact List.mem_append.mpr (Or.inr (List.mem_cons_of_mem (k2, l2) h2))
      · rw [happ] at hmem
        rcases List.mem_append.mp hmem with h1 | h1
        · exact hs k l h1
        · rcases List.mem_cons.mp h1 with h2 | h2
          · injection h2 with hk hl
            exact ⟨a, [], hl, hk.symm⟩
          · cases h2

/-- Witness for C10's reachable-state invariant: one empty-headline record
seeds the bucket keyed by its own fingerprint 0. -/
theorem clusterer_buckets_frame_spot :
    ((0 : Nat), ([⟨"", "c", "k"⟩] : List Article)) ∈
      (exec (init 15) [⟨"", "c", "k"⟩]).buckets ∧
    ∃ a0 rest, ([⟨"", "c", "k"⟩] : List Article) = a0 :: rest ∧
      Hasher.simhashNewsObject a0 = 0 :=
  ⟨by decide, clusterer_buckets_frame.2 15 [⟨"", "c", "k"⟩] 0 [⟨"", "c", "k"⟩] (by decide)⟩

end SimHashTendencyAnalyzer

end Streaming

namespace Streaming

namespace MarkovChainService

theorem alookup_cons {α : Type} (k1 : String) (v : α) (rest : List (String × α)) (k : String) :
    alookup ((k1, v) :: rest) k = if k1 = k then some v else alookup rest k := by
  by_cases h : k1 = k <;> simp [alookup, List.find?_cons, h]

theorem alookup_bump (l : List (String × Nat)) (k k' : String) :
    alookup (bump l k) k' =
      if k' = k then some ((alookup l k').getD 0 + 1) else alookup l k' := by
  induction l with
  | nil =>
    by_cases h : k' = k
    · subst h
      simp [bump, alookup_cons, alookup]
    · have h2 : ¬ k = k' := fun hc => h hc.symm
      simp [bump, alookup_cons, alookup, h, h2]
  | cons q rest ih =>
    obtain ⟨k1, n⟩ := q
    by_cases h1 : k1 = k
    · subst h1
      by_cases h2 : k' = k1
      · subst h2
        simp [bump, alookup_cons]
      · have h2x : ¬ k1 = k' := fun hc => h2 hc.symm
        simp [bump, alookup_cons, h2, h2x]
    · by_cases h2 : k1 = k'
      · subst h2
        have h1x : ¬ k1 = k := h1
        simp [bump, alookup_cons, h1x, fun hc => h1x hc]
      · simp [bump, alookup_cons, h1, h2, ih]

theorem lookup2N_bump2 (tr : List (String × List (String × Nat))) (k1 k2 a b : String) :
    lookup2N (bump2 tr k1 k2) a b =
      if a = k1 ∧ b = k2 then some ((lookup2N tr a b).getD 0 + 1)
      else lookup2N tr a b := by
  induction tr with
  | nil =>
    by_cases ha : a = k1
    · subst ha
      by_cases hb : b = k2
      · subst hb
        simp [bump2, lookup2N, alookup_cons, alookup]
      · have hbx : ¬ k2 = b := fun hc => hb hc.symm
        simp [bump2, lookup2N, alookup_cons, alookup, hb, hbx]
    · have hax : ¬ k1 = a := fun hc => ha hc.symm
      simp [bump2, lookup2N, alookup_cons, alookup, ha, hax]
  | cons q rest ih =>
    obtain ⟨kq, m⟩ := q
    by_cases h1 : kq = k1
    · subst h1
      by_cases ha : a = kq
      · subst ha
        by_cases hb : b = k2
        · subst hb
          simp [bump2, lookup2N, alookup_cons, alookup_bump]
        · simp [bump2, lookup2N, alookup_cons, alookup_bump, hb]
      · have hax : ¬ kq = a := fun hc => ha hc.symm
        have hcond : ¬ (a = kq ∧ b = k2) := fun hc => ha hc.1
        simp [bump2, lookup2N, alookup_cons, hax, hcond]
    · by_cases ha : a = kq
      · subst ha
        have hcond : ¬ (a = k1 ∧ b = k2) := fun hc => h1 hc.1
        simp [bump2, lookup2N, alookup_cons, h1, hcond]
      · have hax : ¬ kq = a := fun hc => ha hc.symm
        have hih := ih
        simp only [lookup2N] at hih
        simp only [bump2, if_neg h1, lookup2N, alookup_cons, if_neg hax]
        exact hih

theorem alookup_map_pair {α β : Type} (l : List (String × α)) (g : String → α → β)
    (k : String) :
    alookup (l.map (fun p => (p.1, g p.1 p.2))) k = (alookup l k).map (g k) := by
  induction l with
  | nil => simp [alookup]
  | cons q rest ih =>
    obtain ⟨kq, v⟩ := q
    by_cases h : kq = k
    · subst h
      simp [alookup_cons]
    · simp only [List.map_cons, alookup_cons, if_neg h, ih]

theorem countTransitions_fold (ps : List (String × String))
    (tr : List (String × List (String × Nat))) (cc : List (String × Nat)) :
    (∀ a b,
      (lookup2N (ps.foldl (fun tc p => (bump2 tc.1 p.1 p.2, bump tc.2 p.1)) (tr, cc)).1 a b).getD 0 =
        (lookup2N tr a b).getD 0 + ps.count (a, b))
    ∧ (∀ a b,
      lookup2N (ps.foldl (fun tc p => (bump2 tc.1 p.1 p.2, bump tc.2 p.1)) (tr, cc)).1 a b = none ↔
        lookup2N tr a b = none ∧ ps.count (a, b) = 0)
    ∧ ∀ a,
      (alookup (ps.foldl (fun tc p => (bump2 tc.1 p.1 p.2, bump tc.2 p.1)) (tr, cc)).2 a).getD 0 =
        (alookup cc a).getD 0 + ps.countP (fun p => p.1 == a) := by
  induction ps generalizing tr cc with
  | nil => exact ⟨fun a b => by simp, fun a b => by simp, fun a => by simp⟩
  | cons p ps ih =>
    obtain ⟨p1, p2⟩ := p
    simp only [List.foldl_cons]
    rcases ih (bump2 tr p1 p2) (bump cc p1) with ⟨ih1, ih2, ih3⟩
    have hcount : ∀ a b : String, ((p1, p2) :: ps).count (a, b) =
        ps.count (a, b) + (if a = p1 ∧ b = p2 then 1 else 0) := by
      intro a b
      by_cases h : a = p1 ∧ b = p2
      · rw [if_pos h, h.1, h.2]
        simp [List.count_cons]
      · rw [if_neg h]
        have hne : ((a, b) : String × String) ≠ (p1, p2) := by
          intro hc
          injection hc with hc1 hc2
          exact h ⟨hc1, hc2⟩
        simp [List.count_cons, hne, Ne.symm hne]
    refine ⟨fun a b => ?_, fun a b => ?_, fun a => ?_⟩
    · rw [ih1 a b, hcount a b, lookup2N_bump2]
      by_cases h : a = p1 ∧ b = p2
      · rw [if_pos h, if_pos h]
        simp only [Option.getD_some]
        omega
      · rw [if_neg h, if_neg h]
        omega
    · rw [ih2 a b, hcount a b, lookup2N_bump2]
      by_cases h : a = p1 ∧ b = p2
      · rw [if_pos h, if_pos h]
        constructor
        · intro hc
          exact absurd hc.1 (Option.some_ne_none _)
        · intro hc
          obtain ⟨hc1, hc2⟩ := hc
          omega
      · rw [if_neg h, if_neg h]
        constructor
        · intro hc
          obtain ⟨hc1, hc2⟩ := hc
          exact ⟨hc1, by omega⟩
        · intro hc
          obtain ⟨hc1, hc2⟩ := hc
          exact ⟨hc1, by omega⟩
    · rw [ih3 a, alookup_bump]
      have hcountP : ((p1, p2) :: ps).countP (fun p => p.1 == a) =
          ps.countP (fun p => p.1 == a) + (if a = p1 then 1 else 0) := by
        by_cases h : a = p1
        · subst h
          simp [List.countP_cons]
        · have hax : ¬ p1 = a := fun hc => h hc.symm
          simp [List.countP_cons, hax, h]
      rw [hcountP]
      by_cases h : a = p1
      · rw [if_pos h, if_pos h]
        simp only [Option.getD_some]
        omega
      · rw [if_neg h, if_neg h]
        omega

end MarkovChainService

end Streaming

namespace Streaming

namespace MarkovChainService

theorem lookup2_map (tr : List (String × List (String × Nat)))
    (g : String → String → Nat → ℚ) (a b : String) :
    lookup2 (tr.map (fun ft => (ft.1, ft.2.map (fun tn => (tn.1, g ft.1 tn.1 tn.2))))) a b =
      (lookup2N tr a b).map (fun v => g a b v) := by
  induction tr with
  | nil => rfl
  | cons q rest ih =>
    obtain ⟨kq, m⟩ := q
    simp only [List.map_cons, lookup2, lookup2N, alookup_cons]
    by_cases h : kq = a
    · rw [if_pos h, if_pos h]
      subst h
      exact alookup_map_pair m (fun t v => g kq t v) b
    · rw [if_neg h, if_neg h]
      exact ih

/-- C9: the transition estimator contract.  For any ordered category
sequence with at least 2 records, the `(a, b)` entry of the computed
transition matrix is present iff the consecutive pair `(a, b)` was
observed, and then equals `count(a,b) / (total transitions out of a)`
rounded to 4 decimal digits; with fewer than 2 records both the matrix
and the exposed graph are empty rather than an error. -/
theorem markov_transition_contract :
    (∀ (cats : List String) (a b : String), 2 ≤ cats.length →
      lookup2 (calcTransitionMatrix cats) a b =
        if 0 < pairCount cats a b
        then some (pyRound4 ((pairCount cats a b : ℚ) / (outCount cats a : ℚ)))
        else none)
    ∧ ∀ cats : List String, cats.length < 2 →
        calcTransitionMatrix cats = [] ∧ getMarkovGraphData cats = ⟨[], []⟩ := by
  constructor
  · intro cats a b hlen
    have hnot : ¬ cats.length < 2 := by omega
    rw [calcTransitionMatrix, if_neg hnot]
    obtain ⟨hc1, hc2, hc3⟩ := countTransitions_fold (pairsOf cats) [] []
    have htc : (pairsOf cats).foldl (fun tc p => (bump2 tc.1 p.1 p.2, bump tc.2 p.1))
        ([], []) = countTransitions cats := rfl
    rw [htc] at hc1 hc2 hc3
    have hbase2 : lookup2N ([] : List (String × List (String × Nat))) a b = none := rfl
    have hc3x : (alookup (countTransitions cats).2 a).getD 0 = outCount cats a := by
      have := hc3 a
      simpa [outCount, alookup] using this
    rw [lookup2_map (countTransitions cats).1
      (fun f t v => pyRound4 ((v : ℚ) /
        ((alookup (countTransitions cats).2 f).getD 0 : ℚ))) a b]
    cases hN : lookup2N (countTransitions cats).1 a b with
    | none =>
      have hcount : pairCount cats a b = 0 := ((hc2 a b).mp hN).2
      rw [if_neg (by rw [hcount]; omega)]
      rfl
    | some n =>
      have hn : n = pairCount cats a b := by
        have := hc1 a b
        rw [hN] at this
        simpa [pairCount, lookup2N, alookup] using this
      have hpos : 0 < pairCount cats a b := by
        rcases Nat.eq_zero_or_pos (pairCount cats a b) with h0 | h0
        · exfalso
          have : lookup2N (countTransitions cats).1 a b = none :=
            (hc2 a b).mpr ⟨hbase2, h0⟩
          rw [hN] at this
          cases this
        · exact h0
      rw [if_pos hpos]
      have hred : (some n).map (fun v : Nat => pyRound4 ((v : ℚ) /
          ((alookup (countTransitions cats).2 a).getD 0 : ℚ))) =
          some (pyRound4 ((n : ℚ) /
            ((alookup (countTransitions cats).2 a).getD 0 : ℚ))) := rfl
      rw [hred, hn, hc3x]
  · intro cats hlen
    have h1 : calcTransitionMatrix cats = [] := by
      rw [calcTransitionMatrix, if_pos hlen]
    exact ⟨h1, by rw [getMarkovGraphData, h1]; rfl⟩

/-- Witness for C9 on the category sequence of the spec's own example. -/
theorem markov_transition_contract_spot :
    2 ≤ (["world", "tech", "tech", "world"] : List String).length ∧
    lookup2 (calcTransitionMatrix ["world", "tech", "tech", "world"]) "tech" "world" =
      (if 0 < pairCount ["world", "tech", "tech", "world"] "tech" "world"
       then some (pyRound4 ((pairCount ["world", "tech", "tech", "world"] "tech" "world" : ℚ) /
         (outCount ["world", "tech", "tech", "world"] "tech" : ℚ)))
       else none) :=
  ⟨by decide, markov_transition_contract.1 ["world", "tech", "tech", "world"] "tech" "world"
    (by decide)⟩

end MarkovChainService

end Streaming
